import Mathlib

/-!
Verification of the open-addressed hash set (`src/data.rs`, module `hash_set`):
a generic set with quadratic probing, tombstone deletion, and load-factor-driven
growth.  The Rust code is embedded shallowly:

* `BucketElement` and `HashSet` mirror the Rust types (`data: Vec<_>` becomes a
  `List`, the `size` and `loaded` counters are `Nat`).
* The hash function is a parameter `hash : T → Nat`; the source obtains a `u64`
  from `DefaultHasher`, so every use reduces the value mod `2^64`.
* Probe arithmetic `hash as usize + k * k` is 64-bit wrapping arithmetic
  (release-mode Rust semantics), modelled with explicit `% 2^64`.
* The probe loop of `index_of` can fail to terminate (and panics outright when
  the table is empty, via `% 0`); both are modelled by `Option`, with `none`
  for a call that does not return.  The probe position is periodic in `k` with
  period `2^63` (`(k + 2^63)^2 ≡ k^2 [MOD 2^64]`), so searching one period is
  exact: the loop returns a value iff it stops within `2^63` steps.
* Capacity arithmetic (`self.data.len() * 2 + 2`) is exact `Nat` arithmetic:
  it could only wrap past `2^63` buckets, which no execution that allocates
  its table can reach (and growth would abort on allocation long before).
* The `add → resize → add` recursion carries explicit fuel; re-insertion during
  a resize keeps the load strictly below the growth trigger, so the nested
  `add` never resizes again, and fuel `2` already gives the exact semantics.
* The f64 comparison `loaded as f64 >= len as f64 * 0.5` is exact halving and
  exact integer comparison for all values below `2^53`, hence is embedded as
  `2 * loaded ≥ len`.
-/

set_option maxHeartbeats 1000000
set_option maxRecDepth 4000
set_option linter.unusedSectionVars false

namespace HashSetVerify

/-- The modulus of Rust `u64`/`usize` arithmetic on a 64-bit target. -/
def USIZE : Nat := 2 ^ 64

/-- One period of the quadratic probe sequence modulo `2^64`:
`(k + 2^63)^2 = k^2 + 2^64*k + 2^126 ≡ k^2 [MOD 2^64]`. -/
def PROBE_PERIOD : Nat := 2 ^ 63

/-- The three bucket states of the source (`NonEmpty`/`Empty`/`Deleted`). -/
inductive BucketElement (T : Type) where
  | NonEmpty (item : T)
  | Empty
  | Deleted
deriving DecidableEq

/-- The set: bucket array plus the live count `size` and the
occupied-including-tombstones count `loaded`. -/
structure HashSet (T : Type) where
  data : List (BucketElement T)
  size : Nat
  loaded : Nat
deriving DecidableEq

variable {T : Type} [DecidableEq T]

/-- `self.data[i]`.  Every access in the source is at an index reduced mod
`data.len()`, hence in bounds; the default is never exercised. -/
def bucketAt (s : HashSet T) (i : Nat) : BucketElement T :=
  s.data.getD i .Empty

/-- The stop test of the probe loop (closure `found_index` in the source):
stop at an `Empty` bucket or at a `NonEmpty` bucket holding an equal item. -/
def found_index (item : T) (b : BucketElement T) : Bool :=
  match b with
  | .Empty => true
  | .NonEmpty item2 => item2 = item
  | .Deleted => false

/-- The bucket index examined at probe step `k`:
`(hash as usize + k * k) % self.data.len()` with wrapping 64-bit arithmetic
(`hash` is a `u64`; `k` and the products/sums are `usize`). -/
def probeIndex (h : Nat) (len : Nat) (k : Nat) : Nat :=
  (h % USIZE + (k % USIZE) * (k % USIZE) % USIZE) % USIZE % len

/-- The bucket index examined at step `t` of a probe for `item` in `s`. -/
def probePos (hash : T → Nat) (s : HashSet T) (item : T) (t : Nat) : Nat :=
  probeIndex (hash item) s.data.length t

/-- Whether the probe for `item` stops at step `t` (the loop condition
`!found_index(index)` of the source, negated). -/
def stopAt (hash : T → Nat) (s : HashSet T) (item : T) (t : Nat) : Bool :=
  found_index item (bucketAt s (probePos hash s item t))

/-- The probe loop of `index_of`, searching from step `k` with the given fuel.
`none` means the loop performs that many further iterations without stopping. -/
def probeAux (hash : T → Nat) (s : HashSet T) (item : T) :
    Nat → Nat → Option Nat
  | 0, _ => none
  | fuel + 1, k =>
    if stopAt hash s item k then some (probePos hash s item k)
    else probeAux hash s item fuel (k + 1)

/-- `HashSet::index_of`.  On an empty table the source computes `% 0` and
panics (`none`).  Otherwise it runs the probe loop from `k = 1`; searching one
full period of the probe sequence is exact, so `none` means the Rust loop
never returns. -/
def index_of (hash : T → Nat) (s : HashSet T) (item : T) : Option Nat :=
  if s.data.length = 0 then none
  else probeAux hash s item PROBE_PERIOD 1

/-- `HashSet::contains`. -/
def contains (hash : T → Nat) (s : HashSet T) (item : T) : Option Bool :=
  if s.size = 0 then some false
  else
    match index_of hash s item with
    | none => none
    | some index =>
      match bucketAt s index with
      | .NonEmpty _ => some true
      | _ => some false

/-- `HashSet::remove`. -/
def remove (hash : T → Nat) (s : HashSet T) (item : T) :
    Option (HashSet T × Bool) :=
  if s.size = 0 then some (s, false)
  else
    match index_of hash s item with
    | none => none
    | some index =>
      match bucketAt s index with
      | .NonEmpty _ =>
        some (⟨s.data.set index .Deleted, s.size - 1, s.loaded⟩, true)
      | _ => some (s, false)

/-- The re-insertion loop of `HashSet::resize`: fold the old buckets into the
fresh table, re-`add`ing every `NonEmpty` bucket's item in table order, through
the supplied `add` operation (tombstones are dropped). -/
def readdWith (addf : HashSet T → T → Option (HashSet T × Bool)) :
    List (BucketElement T) → HashSet T → Option (HashSet T)
  | [], acc => some acc
  | b :: rest, acc =>
    match b with
    | .NonEmpty item =>
      match addf acc item with
      | none => none
      | some (acc2, _) => readdWith addf rest acc2
    | _ => readdWith addf rest acc

/-- `HashSet::add` with explicit recursion fuel for the `add → resize → add`
cycle.  The growth trigger `loaded as f64 >= len as f64 * 0.5` is the exact
integer comparison `2 * loaded ≥ len`; the new capacity is
`self.data.len() * 2 + 2`; resizing replays the old buckets through the
previous fuel level's `add`. -/
def addFuel (hash : T → Nat) : Nat → HashSet T → T → Option (HashSet T × Bool)
  | 0 => fun _ _ => none
  | fuel + 1 => fun s item =>
    let step1 : Option (HashSet T) :=
      if 2 * s.loaded ≥ s.data.length then
        readdWith (addFuel hash fuel) s.data
          ⟨List.replicate (s.data.length * 2 + 2) .Empty, 0, 0⟩
      else some s
    match step1 with
    | none => none
    | some s1 =>
      match index_of hash s1 item with
      | none => none
      | some index =>
        match bucketAt s1 index with
        | .NonEmpty _ => some (s1, false)
        | _ =>
          some (⟨s1.data.set index (.NonEmpty item), s1.size + 1,
                 s1.loaded + 1⟩, true)

/-- `HashSet::resize` (private in the source; only `add` calls it, with
`new_size = len * 2 + 2`). -/
def resize (hash : T → Nat) (s : HashSet T) (new_size : Nat) :
    Option (HashSet T) :=
  readdWith (addFuel hash 1) s.data ⟨List.replicate new_size .Empty, 0, 0⟩

/-- `HashSet::add`.  Fuel `2` is exact: a resize's replayed `add`s never
trigger a nested resize (`readd_no_trigger` below). -/
def add (hash : T → Nat) (s : HashSet T) (item : T) :
    Option (HashSet T × Bool) :=
  addFuel hash 2 s item

/-- `HashSet::new`. -/
def new : HashSet T := ⟨[], 0, 0⟩

/-- `HashSet::clear`: drops the table and resets both counters. -/
def clear (_s : HashSet T) : HashSet T := ⟨[], 0, 0⟩

/-- `HashSet::is_empty`. -/
def is_empty (s : HashSet T) : Bool := s.size = 0

/-- States reachable from `new` by the state-changing operations
(`contains`, `size`, `is_empty` do not change state). -/
inductive Reachable (hash : T → Nat) : HashSet T → Prop where
  | start : Reachable hash new
  | addStep (s s' : HashSet T) (item : T) (b : Bool) :
      Reachable hash s → add hash s item = some (s', b) → Reachable hash s'
  | removeStep (s s' : HashSet T) (item : T) (b : Bool) :
      Reachable hash s → remove hash s item = some (s', b) → Reachable hash s'
  | clearStep (s : HashSet T) : Reachable hash s → Reachable hash (clear s)

/-- Running a sequence of `add` calls (the setting of the spec's
"for all sequences of inserts"). -/
def runAdds (hash : T → Nat) : HashSet T → List T → Option (HashSet T)
  | s, [] => some s
  | s, x :: xs =>
    match add hash s x with
    | none => none
    | some (s', _) => runAdds hash s' xs

/-! ### Derived notions used by the proofs -/

/-- A bucket holding a live element. -/
def isLive (b : BucketElement T) : Bool :=
  match b with
  | .NonEmpty _ => true
  | _ => false

/-- A bucket counting towards the load factor (live or tombstoned). -/
def isLoaded (b : BucketElement T) : Bool :=
  match b with
  | .Empty => false
  | _ => true

/-- A bucket holding exactly the value `x`. -/
def isVal (x : T) (b : BucketElement T) : Bool :=
  match b with
  | .NonEmpty y => decide (y = x)
  | _ => false

/-- Number of live buckets. -/
def liveCount (s : HashSet T) : Nat := s.data.countP isLive

/-- Number of non-`Empty` buckets. -/
def loadCount (s : HashSet T) : Nat := s.data.countP isLoaded

/-- Number of live buckets holding the value `x`. -/
def valCount (s : HashSet T) (x : T) : Nat := s.data.countP (isVal x)

/-- `x` is stored in some live bucket of `s`. -/
def member (s : HashSet T) (x : T) : Prop :=
  BucketElement.NonEmpty x ∈ s.data

instance (s : HashSet T) (x : T) : Decidable (member s x) := by
  unfold member; infer_instance

/-! ### Basic lemmas: probe arithmetic and list counting -/

theorem probeIndex_eq (h len k : Nat) :
    probeIndex h len k = (h + k * k) % USIZE % len := by
  unfold probeIndex
  conv_rhs => rw [Nat.add_mod, Nat.mul_mod]

theorem probeIndex_lt (h len k : Nat) (hlen : 0 < len) :
    probeIndex h len k < len :=
  Nat.mod_lt _ hlen

theorem probePos_lt (hash : T → Nat) (s : HashSet T) (item : T) (t : Nat)
    (hlen : 0 < s.data.length) : probePos hash s item t < s.data.length :=
  probeIndex_lt _ _ _ hlen

/-- The probe position is periodic in the step count with period `2^63`:
this justifies searching a single period in `index_of`. -/
theorem probePos_period (hash : T → Nat) (s : HashSet T) (item : T) (t : Nat) :
    probePos hash s item (t + PROBE_PERIOD) = probePos hash s item t := by
  unfold probePos
  rw [probeIndex_eq, probeIndex_eq]
  have h2 : ((t + PROBE_PERIOD) * (t + PROBE_PERIOD)) % USIZE
      = (t * t) % USIZE := by
    have : (t + PROBE_PERIOD) * (t + PROBE_PERIOD)
        = t * t + (t + 2 ^ 62) * USIZE := by
      unfold PROBE_PERIOD USIZE
      ring
    rw [this, Nat.add_mul_mod_self_right]
  rw [Nat.add_mod, h2, ← Nat.add_mod]

theorem found_index_true {item : T} {b : BucketElement T}
    (h : found_index item b = true) :
    b = .Empty ∨ b = .NonEmpty item := by
  cases b with
  | Empty => exact Or.inl rfl
  | Deleted => simp [found_index] at h
  | NonEmpty y =>
    right
    simp only [found_index, decide_eq_true_eq] at h
    rw [h]

theorem found_index_of_eq (item : T) :
    found_index item (.NonEmpty item) = true := by
  simp [found_index]

theorem found_index_empty (item : T) :
    found_index item (BucketElement.Empty : BucketElement T) = true := rfl

/-- Replace one element: counted occurrences change by the indicator of the
old and the new element (stated additively to stay in `Nat`). -/
theorem countP_set_add {α : Type} (p : α → Bool) (l : List α) (i : Nat)
    (a d : α) (hi : i < l.length) :
    (l.set i a).countP p + (if p (l.getD i d) then 1 else 0) =
      l.countP p + (if p a then 1 else 0) := by
  induction l generalizing i with
  | nil => simp at hi
  | cons x xs ih =>
    cases i with
    | zero =>
      simp only [List.set_cons_zero, List.countP_cons, List.getD_cons_zero]
      omega
    | succ j =>
      simp only [List.set_cons_succ, List.countP_cons, List.getD_cons_succ]
      have := ih j (by simpa using Nat.lt_of_succ_lt_succ hi)
      omega

theorem getD_set_self {α : Type} (l : List α) (i : Nat) (a d : α)
    (hi : i < l.length) : (l.set i a).getD i d = a := by
  rw [List.getD_eq_getElem _ _ (by simpa using hi)]
  exact List.getElem_set_self _

theorem getD_set_ne {α : Type} (l : List α) (i j : Nat) (a d : α)
    (hij : i ≠ j) : (l.set i a).getD j d = l.getD j d := by
  by_cases hj : j < l.length
  · rw [List.getD_eq_getElem _ _ (by simpa using hj),
      List.getD_eq_getElem _ _ hj]
    exact List.getElem_set_ne hij _
  · rw [List.getD_eq_default _ _ (by simpa using Nat.le_of_not_lt hj),
      List.getD_eq_default _ _ (Nat.le_of_not_lt hj)]

theorem isVal_iff (x : T) (b : BucketElement T) :
    isVal x b = true ↔ b = .NonEmpty x := by
  cases b with
  | NonEmpty y => simp [isVal]
  | Empty => simp [isVal]
  | Deleted => simp [isVal]

theorem member_iff_valCount (s : HashSet T) (x : T) :
    member s x ↔ 0 < valCount s x := by
  unfold member valCount
  rw [List.countP_pos_iff]
  constructor
  · intro h; exact ⟨_, h, (isVal_iff x _).2 rfl⟩
  · rintro ⟨b, hb, hval⟩
    rw [(isVal_iff x b).1 hval] at hb
    exact hb

theorem member_iff_getD (s : HashSet T) (x : T) :
    member s x ↔ ∃ i, i < s.data.length ∧ bucketAt s i = .NonEmpty x := by
  unfold member bucketAt
  rw [List.mem_iff_getElem]
  constructor
  · rintro ⟨i, hi, hget⟩
    exact ⟨i, hi, by rw [List.getD_eq_getElem _ _ hi, hget]⟩
  · rintro ⟨i, hi, hget⟩
    exact ⟨i, hi, by rw [← List.getD_eq_getElem _ (.Empty) hi, hget]⟩

theorem liveCount_le_loadCount (s : HashSet T) : liveCount s ≤ loadCount s :=
  List.countP_mono_left (fun b _ hb => by
    cases b with
    | NonEmpty y => rfl
    | Empty => simp [isLive] at hb
    | Deleted => rfl)

theorem loadCount_le_length (s : HashSet T) : loadCount s ≤ s.data.length :=
  List.countP_le_length _

/-- A table with fewer non-`Empty` buckets than buckets has an `Empty` one. -/
theorem exists_empty_bucket (s : HashSet T)
    (h : loadCount s < s.data.length) :
    ∃ e, e < s.data.length ∧ bucketAt s e = .Empty := by
  by_contra hc
  push_neg at hc
  have : s.data.length ≤ loadCount s := by
    unfold loadCount
    have : ∀ b ∈ s.data, isLoaded b = true := by
      intro b hb
      rw [List.mem_iff_getElem] at hb
      obtain ⟨i, hi, hget⟩ := hb
      have hne := hc i hi
      rw [bucketAt, List.getD_eq_getElem _ _ hi, hget] at hne
      cases b with
      | NonEmpty y => rfl
      | Deleted => rfl
      | Empty => exact absurd rfl hne
    calc s.data.length = s.data.countP (fun _ => true) := by
          simp [List.countP_eq_length_filter]
      _ ≤ s.data.countP isLoaded := List.countP_mono_left (fun b hb _ => this b hb)
  omega

/-! ### Characterisation of `probeAux` and `index_of` -/

theorem probeAux_eq_some (hash : T → Nat) (s : HashSet T) (item : T)
    (fuel k0 t : Nat) (hk : k0 ≤ t) (ht : t < k0 + fuel)
    (hstop : stopAt hash s item t = true)
    (hmin : ∀ u, k0 ≤ u → u < t → stopAt hash s item u = false) :
    probeAux hash s item fuel k0 = some (probePos hash s item t) := by
  induction fuel generalizing k0 with
  | zero => omega
  | succ fuel ih =>
    unfold probeAux
    by_cases hk0 : stopAt hash s item k0 = true
    · have htk : t = k0 := by
        by_contra hne
        have h := hmin k0 (Nat.le_refl _) (by omega)
        rw [hk0] at h
        exact Bool.noConfusion h
      subst htk
      rw [hk0]
      simp
    · rw [Bool.eq_false_iff.2 hk0]
      simp only [Bool.false_eq_true, if_false]
      have hkt : k0 ≠ t := fun h => hk0 (h ▸ hstop)
      exact ih (k0 + 1) (by omega) (by omega)
        (fun u hu1 hu2 => hmin u (by omega) hu2)

theorem probeAux_some (hash : T → Nat) (s : HashSet T) (item : T)
    (fuel k0 i : Nat) (h : probeAux hash s item fuel k0 = some i) :
    ∃ t, k0 ≤ t ∧ t < k0 + fuel ∧ stopAt hash s item t = true ∧
      i = probePos hash s item t ∧
      ∀ u, k0 ≤ u → u < t → stopAt hash s item u = false := by
  induction fuel generalizing k0 with
  | zero => exact absurd h (by simp [probeAux])
  | succ fuel ih =>
    unfold probeAux at h
    by_cases hk0 : stopAt hash s item k0 = true
    · rw [hk0] at h
      simp at h
      exact ⟨k0, Nat.le_refl _, by omega, hk0, h.symm, fun u hu1 hu2 => by omega⟩
    · rw [Bool.eq_false_iff.2 hk0] at h
      simp only [Bool.false_eq_true, if_false] at h
      obtain ⟨t, ht1, ht2, ht3, ht4, ht5⟩ := ih (k0 + 1) h
      refine ⟨t, by omega, by omega, ht3, ht4, fun u hu1 hu2 => ?_⟩
      rcases Nat.eq_or_lt_of_le hu1 with rfl | hlt
      · exact Bool.eq_false_iff.2 hk0
      · exact ht5 u hlt hu2

theorem probeAux_isSome (hash : T → Nat) (s : HashSet T) (item : T)
    (fuel k0 t : Nat) (hk : k0 ≤ t) (ht : t < k0 + fuel)
    (hstop : stopAt hash s item t = true) :
    (probeAux hash s item fuel k0).isSome := by
  induction fuel generalizing k0 with
  | zero => omega
  | succ fuel ih =>
    unfold probeAux
    by_cases hk0 : stopAt hash s item k0 = true
    · rw [hk0]
      simp
    · rw [Bool.eq_false_iff.2 hk0]
      simp only [Bool.false_eq_true, if_false]
      have hkt : k0 ≠ t := fun h => hk0 (h ▸ hstop)
      exact ih (k0 + 1) (by omega) (by omega)

/-- `index_of` returns the position of the first stopping probe step. -/
theorem index_of_eq_some (hash : T → Nat) (s : HashSet T) (item : T)
    (t : Nat) (hlen : s.data.length ≠ 0) (ht1 : 1 ≤ t)
    (ht2 : t ≤ PROBE_PERIOD) (hstop : stopAt hash s item t = true)
    (hmin : ∀ u, 1 ≤ u → u < t → stopAt hash s item u = false) :
    index_of hash s item = some (probePos hash s item t) := by
  unfold index_of
  rw [if_neg hlen]
  exact probeAux_eq_some hash s item PROBE_PERIOD 1 t ht1 (by omega) hstop hmin

theorem index_of_some (hash : T → Nat) (s : HashSet T) (item : T) (i : Nat)
    (h : index_of hash s item = some i) :
    s.data.length ≠ 0 ∧ ∃ t, 1 ≤ t ∧ t ≤ PROBE_PERIOD ∧
      stopAt hash s item t = true ∧ i = probePos hash s item t ∧
      ∀ u, 1 ≤ u → u < t → stopAt hash s item u = false := by
  unfold index_of at h
  by_cases hlen : s.data.length = 0
  · rw [if_pos hlen] at h; exact absurd h (by simp)
  · rw [if_neg hlen] at h
    obtain ⟨t, ht1, ht2, ht3, ht4, ht5⟩ := probeAux_some hash s item _ _ _ h
    exact ⟨hlen, t, ht1, by omega, ht3, ht4, ht5⟩

theorem index_of_isSome (hash : T → Nat) (s : HashSet T) (item : T)
    (t : Nat) (hlen : s.data.length ≠ 0) (ht1 : 1 ≤ t)
    (ht2 : t ≤ PROBE_PERIOD) (hstop : stopAt hash s item t = true) :
    (index_of hash s item).isSome := by
  unfold index_of
  rw [if_neg hlen]
  exact probeAux_isSome hash s item PROBE_PERIOD 1 t ht1 (by omega) hstop

/-- What `index_of` guarantees about the returned index: in bounds, and the
bucket there is a stop (an `Empty` bucket or one holding an equal value). -/
theorem index_of_bucket (hash : T → Nat) (s : HashSet T) (item : T) (i : Nat)
    (h : index_of hash s item = some i) :
    i < s.data.length ∧ found_index item (bucketAt s i) = true := by
  obtain ⟨hlen, t, _, _, hstop, hi, _⟩ := index_of_some hash s item i h
  subst hi
  exact ⟨probePos_lt hash s item t (Nat.pos_of_ne_zero hlen), hstop⟩

/-- `index_of` on an empty table: the source computes `% 0` and panics. -/
theorem index_of_empty_table (hash : T → Nat) (s : HashSet T) (item : T)
    (h : s.data.length = 0) : index_of hash s item = none := by
  unfold index_of
  rw [if_pos h]

/-! ### The data-structure invariant -/

/-- `t` is the first stopping step of the probe for `x` in `s`
(within one probe period, which is all the loop can ever see). -/
def FirstStop (hash : T → Nat) (s : HashSet T) (x : T) (t : Nat) : Prop :=
  1 ≤ t ∧ t ≤ PROBE_PERIOD ∧ stopAt hash s x t = true ∧
    ∀ u, 1 ≤ u → u < t → stopAt hash s x u = false

theorem firstStop_unique (hash : T → Nat) (s : HashSet T) (x : T)
    (t t' : Nat) (h : FirstStop hash s x t) (h' : FirstStop hash s x t') :
    t = t' := by
  obtain ⟨h1, _, h3, h4⟩ := h
  obtain ⟨h1', _, h3', h4'⟩ := h'
  by_contra hne
  rcases Nat.lt_or_ge t t' with hlt | hge
  · rw [h4' t h1 hlt] at h3; exact Bool.noConfusion h3
  · have : t' < t := by omega
    rw [h4 t' h1' this] at h3'; exact Bool.noConfusion h3'

theorem index_of_of_firstStop (hash : T → Nat) (s : HashSet T) (x : T)
    (t : Nat) (hlen : s.data.length ≠ 0) (h : FirstStop hash s x t) :
    index_of hash s x = some (probePos hash s x t) :=
  index_of_eq_some hash s x t hlen h.1 h.2.1 h.2.2.1 h.2.2.2

/-- The invariant maintained by every reachable state:
the counters mirror the table, the table is at most half full, the capacity
has the shape forced by the growth rule, values are unique, and every stored
value is reached by its own probe strictly before any `Empty` bucket. -/
structure Inv (hash : T → Nat) (s : HashSet T) : Prop where
  loaded_eq : s.loaded = loadCount s
  size_eq : s.size = liveCount s
  load_le : 2 * s.loaded ≤ s.data.length
  cap_form : ∃ n, s.data.length = 2 ^ (n + 1) - 2
  uniq : ∀ x : T, valCount s x ≤ 1
  found : ∀ x : T, member s x →
    ∃ t, FirstStop hash s x t ∧ bucketAt s (probePos hash s x t) = .NonEmpty x

theorem inv_new (hash : T → Nat) : Inv hash (new : HashSet T) := by
  refine ⟨rfl, rfl, by simp [new], ⟨0, rfl⟩, fun x => by simp [valCount, new],
    fun x hx => absurd hx (by simp [member, new])⟩

theorem inv_clear (hash : T → Nat) (s : HashSet T) :
    Inv hash (clear s) := by
  refine ⟨rfl, rfl, by simp [clear], ⟨0, rfl⟩,
    fun x => by simp [valCount, clear],
    fun x hx => absurd hx (by simp [member, clear])⟩

/-- The capacity is even in every state satisfying the invariant. -/
theorem len_even (hash : T → Nat) (s : HashSet T) (hInv : Inv hash s) :
    s.data.length % 2 = 0 := by
  obtain ⟨n, hn⟩ := hInv.cap_form
  have : 2 ^ (n + 1) % 2 = 0 := by
    rw [Nat.pow_succ, Nat.mul_mod_left]
  omega

/-! ### Dissecting the operations -/

/-- The probe-and-insert part of `add`, after the growth step. -/
def addCore (hash : T → Nat) (s1 : HashSet T) (item : T) :
    Option (HashSet T × Bool) :=
  match index_of hash s1 item with
  | none => none
  | some index =>
    match bucketAt s1 index with
    | .NonEmpty _ => some (s1, false)
    | _ =>
      some (⟨s1.data.set index (.NonEmpty item), s1.size + 1,
             s1.loaded + 1⟩, true)

theorem addFuel_succ (hash : T → Nat) (fuel : Nat) (s : HashSet T)
    (item : T) :
    addFuel hash (fuel + 1) s item =
      match (if 2 * s.loaded ≥ s.data.length then
          readdWith (addFuel hash fuel) s.data
            ⟨List.replicate (s.data.length * 2 + 2) .Empty, 0, 0⟩
        else some s) with
      | none => none
      | some s1 => addCore hash s1 item := by
  rw [addFuel]
  unfold addCore
  rfl

theorem addCore_some_false (hash : T → Nat) (s1 s' : HashSet T) (x : T)
    (h : addCore hash s1 x = some (s', false)) :
    s' = s1 ∧ ∃ i, index_of hash s1 x = some i ∧
      bucketAt s1 i = .NonEmpty x := by
  unfold addCore at h
  split at h
  · exact absurd h (by simp)
  · next i hio =>
    have hb := (index_of_bucket hash s1 x i hio).2
    split at h
    · next y hbk =>
      simp only [Option.some.injEq, Prod.mk.injEq] at h
      rcases found_index_true (hbk ▸ hb) with h' | h'
      · exact absurd h' (by simp)
      · injection h' with h'
        exact ⟨h.1.symm, i, hio, by rw [hbk, h']⟩
    · simp at h

theorem addCore_some_true (hash : T → Nat) (s1 s' : HashSet T) (x : T)
    (h : addCore hash s1 x = some (s', true)) :
    ∃ i, index_of hash s1 x = some i ∧ bucketAt s1 i = .Empty ∧
      s' = ⟨s1.data.set i (.NonEmpty x), s1.size + 1, s1.loaded + 1⟩ := by
  unfold addCore at h
  split at h
  · exact absurd h (by simp)
  · next i hio =>
    have hb := (index_of_bucket hash s1 x i hio).2
    split at h
    · simp at h
    · next hne =>
      simp only [Option.some.injEq, Prod.mk.injEq] at h
      rcases found_index_true hb with hbk | hbk
      · exact ⟨i, hio, hbk, h.1.symm⟩
      · exact absurd hbk (hne x)

theorem addCore_isSome (hash : T → Nat) (s1 : HashSet T) (x : T)
    (h : (index_of hash s1 x).isSome) : (addCore hash s1 x).isSome := by
  unfold addCore
  split
  · next hio => rw [hio] at h; exact absurd h (by simp)
  · next i hio => split <;> simp

theorem remove_some_true (hash : T → Nat) (s s' : HashSet T) (x : T)
    (h : remove hash s x = some (s', true)) :
    s.size ≠ 0 ∧ ∃ i, index_of hash s x = some i ∧
      bucketAt s i = .NonEmpty x ∧
      s' = ⟨s.data.set i .Deleted, s.size - 1, s.loaded⟩ := by
  unfold remove at h
  split at h
  · simp at h
  · next hsz =>
    refine ⟨hsz, ?_⟩
    split at h
    · exact absurd h (by simp)
    · next i hio =>
      have hb := (index_of_bucket hash s x i hio).2
      split at h
      · next y hbk =>
        simp only [Option.some.injEq, Prod.mk.injEq] at h
        rcases found_index_true (hbk ▸ hb) with h' | h'
        · exact absurd h' (by simp)
        · injection h' with h'
          exact ⟨i, hio, by rw [hbk, h'], h.1.symm⟩
      · simp at h

theorem remove_some_false (hash : T → Nat) (s s' : HashSet T) (x : T)
    (h : remove hash s x = some (s', false)) : s' = s := by
  unfold remove at h
  split at h
  · simp at h; exact h.symm
  · split at h
    · exact absurd h (by simp)
    · split at h
      · simp at h
      · simp at h; exact h.symm

/-! ### State-update helpers -/

theorem countP_set_state (p : BucketElement T → Bool) (s : HashSet T)
    (i : Nat) (b : BucketElement T) (hi : i < s.data.length) :
    (s.data.set i b).countP p + (if p (bucketAt s i) then 1 else 0) =
      s.data.countP p + (if p b then 1 else 0) :=
  countP_set_add p s.data i b .Empty hi

theorem bucketAt_set (s : HashSet T) (i j : Nat) (b : BucketElement T)
    (hi : i < s.data.length) (sz ld : Nat) :
    bucketAt ⟨s.data.set i b, sz, ld⟩ j = if i = j then b else bucketAt s j := by
  unfold bucketAt
  by_cases hij : i = j
  · subst hij
    rw [if_pos rfl]
    exact getD_set_self _ _ _ _ hi
  · rw [if_neg hij]
    exact getD_set_ne _ _ _ _ _ hij

theorem probePos_set (hash : T → Nat) (s : HashSet T) (i : Nat)
    (b : BucketElement T) (sz ld : Nat) (y : T) (u : Nat) :
    probePos hash ⟨s.data.set i b, sz, ld⟩ y u = probePos hash s y u := by
  unfold probePos
  rw [show (HashSet.mk (s.data.set i b) sz ld).data = s.data.set i b from rfl,
    List.length_set]

theorem not_member_of_empty_stop (hash : T → Nat) (s : HashSet T) (x : T)
    (i : Nat) (hInv : Inv hash s) (hio : index_of hash s x = some i)
    (hbk : bucketAt s i = .Empty) : ¬ member s x := by
  intro hmem
  obtain ⟨t', hFS', hb'⟩ := hInv.found x hmem
  obtain ⟨hlen, t, ht1, ht2, hstop, hi_eq, hmin⟩ := index_of_some hash s x i hio
  have hFS : FirstStop hash s x t := ⟨ht1, ht2, hstop, hmin⟩
  have het := firstStop_unique hash s x t t' hFS hFS'
  subst het
  rw [← hi_eq, hbk] at hb'
  exact BucketElement.noConfusion hb'

theorem valCount_zero_of_not_member (s : HashSet T) (x : T)
    (h : ¬ member s x) : valCount s x = 0 := by
  by_contra hc
  exact h ((member_iff_valCount s x).2 (Nat.pos_of_ne_zero hc))

/-! ### Invariant preservation: inserting into an `Empty` bucket -/

theorem insert_spec (hash : T → Nat) (s1 : HashSet T) (x : T) (i : Nat)
    (hInv : Inv hash s1)
    (hload2 : 2 * s1.loaded + 2 ≤ s1.data.length)
    (hio : index_of hash s1 x = some i) (hbk : bucketAt s1 i = .Empty) :
    Inv hash ⟨s1.data.set i (.NonEmpty x), s1.size + 1, s1.loaded + 1⟩ ∧
      ¬ member s1 x ∧
      ∀ y, member ⟨s1.data.set i (.NonEmpty x), s1.size + 1, s1.loaded + 1⟩ y
        ↔ (member s1 y ∨ y = x) := by
  have hi : i < s1.data.length := (index_of_bucket hash s1 x i hio).1
  have hlen2 : (HashSet.mk (s1.data.set i (.NonEmpty x)) (s1.size + 1)
      (s1.loaded + 1)).data.length = s1.data.length := List.length_set _ _ _
  have hbucket2 : ∀ j, bucketAt ⟨s1.data.set i (.NonEmpty x), s1.size + 1,
      s1.loaded + 1⟩ j = if i = j then .NonEmpty x else bucketAt s1 j :=
    fun j => bucketAt_set s1 i j _ hi _ _
  have hpos : ∀ (y : T) (u : Nat), probePos hash ⟨s1.data.set i (.NonEmpty x),
      s1.size + 1, s1.loaded + 1⟩ y u = probePos hash s1 y u :=
    fun y u => probePos_set hash s1 i _ _ _ y u
  have hnm : ¬ member s1 x := not_member_of_empty_stop hash s1 x i hInv hio hbk
  have hmem2 : ∀ y, member ⟨s1.data.set i (.NonEmpty x), s1.size + 1,
      s1.loaded + 1⟩ y ↔ (member s1 y ∨ y = x) := by
    intro y
    rw [member_iff_getD, member_iff_getD]
    constructor
    · rintro ⟨j, hj, hb⟩
      rw [hlen2] at hj
      rw [hbucket2 j] at hb
      by_cases hij : i = j
      · rw [if_pos hij] at hb
        right
        injection hb with hb
        exact hb.symm
      · rw [if_neg hij] at hb
        exact Or.inl ⟨j, hj, hb⟩
    · rintro (⟨j, hj, hb⟩ | rfl)
      · have hij : i ≠ j := by
          intro hij
          rw [← hij, hbk] at hb
          exact BucketElement.noConfusion hb
        exact ⟨j, by rw [hlen2]; exact hj,
          by rw [hbucket2 j, if_neg hij]; exact hb⟩
      · exact ⟨i, by rw [hlen2]; exact hi, by rw [hbucket2 i, if_pos rfl]⟩
  refine ⟨⟨?_, ?_, ?_, ?_, ?_, ?_⟩, hnm, hmem2⟩
  · -- loaded_eq
    have hc := countP_set_state isLoaded s1 i (.NonEmpty x) hi
    rw [hbk] at hc
    simp only [isLoaded, Bool.false_eq_true, if_false, if_true] at hc
    have h2 := hInv.loaded_eq
    unfold loadCount at h2 ⊢
    simp only
    omega
  · -- size_eq
    have hc := countP_set_state isLive s1 i (.NonEmpty x) hi
    rw [hbk] at hc
    simp only [isLive, Bool.false_eq_true, if_false, if_true] at hc
    have h2 := hInv.size_eq
    unfold liveCount at h2 ⊢
    simp only
    omega
  · -- load_le
    show 2 * (s1.loaded + 1) ≤ (s1.data.set i (BucketElement.NonEmpty x)).length
    rw [List.length_set]
    omega
  · -- cap_form
    rw [hlen2]
    exact hInv.cap_form
  · -- uniq
    intro y
    have hc := countP_set_state (isVal y) s1 i (.NonEmpty x) hi
    rw [hbk] at hc
    by_cases hxy : x = y
    · subst hxy
      have h0 : valCount s1 x = 0 := valCount_zero_of_not_member s1 x hnm
      simp only [isVal, decide_eq_true_eq, Bool.false_eq_true, if_false,
        eq_self_iff_true, if_true] at hc
      unfold valCount at h0 ⊢
      show List.countP (isVal x) (s1.data.set i (BucketElement.NonEmpty x)) ≤ 1
      omega
    · have hvx : valCount s1 y ≤ 1 := hInv.uniq y
      simp only [isVal, Bool.false_eq_true, if_false,
        decide_eq_true_eq] at hc
      rw [if_neg hxy] at hc
      unfold valCount at hvx ⊢
      show List.countP (isVal y) (s1.data.set i (BucketElement.NonEmpty x)) ≤ 1
      omega
  · -- found
    intro y hy
    rcases (hmem2 y).1 hy with hy1 | rfl
    · have hyx : y ≠ x := fun h => hnm (h ▸ hy1)
      obtain ⟨t, hFS, hb⟩ := hInv.found y hy1
      have hstop1 := hFS.2.2.1
      unfold stopAt at hstop1
      have hpne : probePos hash s1 y t ≠ i := by
        intro h
        rw [h, hbk] at hb
        exact BucketElement.noConfusion hb
      refine ⟨t, ⟨hFS.1, hFS.2.1, ?_, ?_⟩, ?_⟩
      · unfold stopAt
        rw [hpos, hbucket2, if_neg (fun h => hpne h.symm)]
        exact hstop1
      · intro u hu1 hu2
        have hqne : probePos hash s1 y u ≠ i := by
          intro h
          have hstopu : stopAt hash s1 y u = true := by
            unfold stopAt
            rw [h, hbk]
            rfl
          rw [hFS.2.2.2 u hu1 hu2] at hstopu
          exact Bool.noConfusion hstopu
        have hfalse := hFS.2.2.2 u hu1 hu2
        unfold stopAt at hfalse ⊢
        rw [hpos, hbucket2, if_neg (fun h => hqne h.symm)]
        exact hfalse
      · rw [hpos, hbucket2, if_neg (fun h => hpne h.symm)]
        exact hb
    · obtain ⟨hlen, t, ht1, ht2, hstop, hi_eq, hmin⟩ :=
        index_of_some hash s1 y i hio
      refine ⟨t, ⟨ht1, ht2, ?_, ?_⟩, ?_⟩
      · unfold stopAt
        rw [hpos, hbucket2, if_pos hi_eq]
        simp [found_index]
      · intro u hu1 hu2
        have hqne : probePos hash s1 y u ≠ i := by
          intro h
          have hstopu : stopAt hash s1 y u = true := by
            unfold stopAt
            rw [h, hbk]
            rfl
          rw [hmin u hu1 hu2] at hstopu
          exact Bool.noConfusion hstopu
        have hfalse := hmin u hu1 hu2
        unfold stopAt at hfalse ⊢
        rw [hpos, hbucket2, if_neg (fun h => hqne h.symm)]
        exact hfalse
      · rw [hpos, hbucket2, if_pos hi_eq]

/-! ### Invariant preservation: `remove` -/

theorem remove_true_spec (hash : T → Nat) (s s' : HashSet T) (x : T)
    (hInv : Inv hash s) (h : remove hash s x = some (s', true)) :
    Inv hash s' ∧ member s x ∧ ¬ member s' x ∧
      (∀ y, y ≠ x → (member s' y ↔ member s y)) ∧
      s'.size = s.size - 1 ∧ s'.loaded = s.loaded ∧
      s'.data.length = s.data.length ∧ 1 ≤ s.size := by
  obtain ⟨hsz, i, hio, hbk, hs'⟩ := remove_some_true hash s s' x h
  subst hs'
  have hi : i < s.data.length := (index_of_bucket hash s x i hio).1
  have hlen2 : (HashSet.mk (s.data.set i .Deleted) (s.size - 1)
      s.loaded).data.length = s.data.length := List.length_set _ _ _
  have hbucket2 : ∀ j, bucketAt ⟨s.data.set i .Deleted, s.size - 1,
      s.loaded⟩ j = if i = j then .Deleted else bucketAt s j :=
    fun j => bucketAt_set s i j _ hi _ _
  have hpos : ∀ (y : T) (u : Nat), probePos hash ⟨s.data.set i .Deleted,
      s.size - 1, s.loaded⟩ y u = probePos hash s y u :=
    fun y u => probePos_set hash s i _ _ _ y u
  have hmemx : member s x := (member_iff_getD s x).2 ⟨i, hi, hbk⟩
  have hvc1 : valCount s x = 1 := by
    have := hInv.uniq x
    have := (member_iff_valCount s x).1 hmemx
    omega
  have hvcx : List.countP (isVal x) (s.data.set i .Deleted) = 0 := by
    have hc := countP_set_state (isVal x) s i .Deleted hi
    rw [hbk] at hc
    simp only [isVal, decide_eq_true_eq, Bool.false_eq_true, if_false,
      eq_self_iff_true, if_true] at hc
    unfold valCount at hvc1
    omega
  have hnm' : ¬ member ⟨s.data.set i .Deleted, s.size - 1, s.loaded⟩ x := by
    rw [member_iff_valCount]
    unfold valCount
    show ¬ 0 < List.countP (isVal x) (s.data.set i .Deleted)
    omega
  have hmem_pres : ∀ y, y ≠ x →
      (member ⟨s.data.set i .Deleted, s.size - 1, s.loaded⟩ y ↔
        member s y) := by
    intro y hyx
    have hc := countP_set_state (isVal y) s i .Deleted hi
    rw [hbk] at hc
    simp only [isVal, decide_eq_true_eq, Bool.false_eq_true, if_false] at hc
    rw [if_neg (fun hh => hyx hh.symm)] at hc
    rw [member_iff_valCount, member_iff_valCount]
    unfold valCount
    show 0 < List.countP (isVal y) (s.data.set i .Deleted) ↔
      0 < List.countP (isVal y) s.data
    omega
  have hsize1 : 1 ≤ s.size := Nat.pos_of_ne_zero hsz
  refine ⟨⟨?_, ?_, ?_, ?_, ?_, ?_⟩, hmemx, hnm', hmem_pres, rfl, rfl,
    hlen2, hsize1⟩
  · -- loaded_eq
    have hc := countP_set_state isLoaded s i .Deleted hi
    rw [hbk] at hc
    simp only [isLoaded, if_true] at hc
    have h2 := hInv.loaded_eq
    unfold loadCount at h2 ⊢
    show s.loaded = List.countP isLoaded (s.data.set i .Deleted)
    omega
  · -- size_eq
    have hc := countP_set_state isLive s i .Deleted hi
    rw [hbk] at hc
    simp only [isLive, Bool.false_eq_true, if_false, if_true] at hc
    have h2 := hInv.size_eq
    have h3 : 0 < liveCount s := by
      have h4 := (member_iff_valCount s x).1 hmemx
      have h5 : valCount s x ≤ liveCount s := by
        unfold valCount liveCount
        exact List.countP_mono_left (fun b _ hb => by
          rw [isVal_iff x b] at hb
          rw [hb]
          rfl)
      omega
    unfold liveCount at h2 h3 ⊢
    show s.size - 1 = List.countP isLive (s.data.set i .Deleted)
    omega
  · -- load_le
    show 2 * s.loaded ≤ (s.data.set i .Deleted).length
    rw [List.length_set]
    exact hInv.load_le
  · -- cap_form
    rw [hlen2]
    exact hInv.cap_form
  · -- uniq
    intro y
    by_cases hyx : y = x
    · subst hyx
      unfold valCount
      show List.countP (isVal y) (s.data.set i .Deleted) ≤ 1
      omega
    · have hc := countP_set_state (isVal y) s i .Deleted hi
      rw [hbk] at hc
      simp only [isVal, decide_eq_true_eq, Bool.false_eq_true, if_false] at hc
      rw [if_neg (fun hh => hyx hh.symm)] at hc
      have := hInv.uniq y
      unfold valCount at this ⊢
      show List.countP (isVal y) (s.data.set i .Deleted) ≤ 1
      omega
  · -- found
    intro y hy
    have hyx : y ≠ x := by
      intro hh
      subst hh
      exact hnm' hy
    have hy1 : member s y := (hmem_pres y hyx).1 hy
    obtain ⟨t, hFS, hb⟩ := hInv.found y hy1
    have hpne : probePos hash s y t ≠ i := by
      intro hh
      rw [hh, hbk] at hb
      injection hb with hb
      exact hyx hb.symm
    have hstop1 := hFS.2.2.1
    unfold stopAt at hstop1
    refine ⟨t, ⟨hFS.1, hFS.2.1, ?_, ?_⟩, ?_⟩
    · unfold stopAt
      rw [hpos, hbucket2, if_neg (fun hh => hpne hh.symm)]
      exact hstop1
    · intro u hu1 hu2
      have hfalse := hFS.2.2.2 u hu1 hu2
      unfold stopAt at hfalse ⊢
      rw [hpos, hbucket2]
      by_cases hqi : i = probePos hash s y u
      · rw [if_pos hqi]
        rfl
      · rw [if_neg hqi]
        exact hfalse
    · rw [hpos, hbucket2, if_neg (fun hh => hpne hh.symm)]
      exact hb

/-! ### Invariant preservation: `add` (including resize) -/

theorem addFuel_no_trigger (hash : T → Nat) (fuel : Nat) (s : HashSet T)
    (item : T) (hnt : ¬ 2 * s.loaded ≥ s.data.length) :
    addFuel hash (fuel + 1) s item = addCore hash s item := by
  rw [addFuel_succ, if_neg hnt]

theorem addFuel_trigger (hash : T → Nat) (fuel : Nat) (s : HashSet T)
    (item : T) (ht : 2 * s.loaded ≥ s.data.length) :
    addFuel hash (fuel + 1) s item =
      match readdWith (addFuel hash fuel) s.data
          ⟨List.replicate (s.data.length * 2 + 2) .Empty, 0, 0⟩ with
      | none => none
      | some s1 => addCore hash s1 item := by
  rw [addFuel_succ, if_pos ht]

theorem load2_of_no_trigger (hash : T → Nat) (s : HashSet T)
    (hInv : Inv hash s) (hnt : ¬ 2 * s.loaded ≥ s.data.length) :
    2 * s.loaded + 2 ≤ s.data.length := by
  have he := len_even hash s hInv
  omega

/-- Full description of the probe-and-insert step `addCore`. -/
theorem addCore_spec (hash : T → Nat) (s1 s' : HashSet T) (x : T) (b : Bool)
    (hInv : Inv hash s1) (hload2 : 2 * s1.loaded + 2 ≤ s1.data.length)
    (h : addCore hash s1 x = some (s', b)) :
    Inv hash s' ∧ (b = true ↔ ¬ member s1 x) ∧
      (∀ y, member s' y ↔ (member s1 y ∨ y = x)) ∧
      (b = true → s'.size = s1.size + 1 ∧ s'.loaded = s1.loaded + 1 ∧
        s'.data.length = s1.data.length) ∧
      (b = false → s' = s1) := by
  cases b with
  | false =>
    obtain ⟨hs', i, hio, hbk⟩ := addCore_some_false hash s1 s' x h
    have hmem : member s1 x := (member_iff_getD s1 x).2
      ⟨i, (index_of_bucket hash s1 x i hio).1, hbk⟩
    refine ⟨hs' ▸ hInv, ?_, ?_, by simp, fun _ => hs'⟩
    · constructor
      · intro hh; exact absurd hh (by simp)
      · intro hh; exact absurd hmem hh
    · intro y
      rw [hs']
      constructor
      · exact Or.inl
      · rintro (hy | rfl)
        · exact hy
        · exact hmem
  | true =>
    obtain ⟨i, hio, hbk, hs'⟩ := addCore_some_true hash s1 s' x h
    subst hs'
    obtain ⟨hInv', hnm, hmem⟩ := insert_spec hash s1 x i hInv hload2 hio hbk
    exact ⟨hInv', ⟨fun _ => hnm, fun _ => rfl⟩, hmem,
      fun _ => ⟨rfl, rfl, List.length_set _ _ _⟩, by simp⟩

/-- The invariant of the fresh table built at the start of a resize. -/
theorem inv_fresh (hash : T → Nat) (n : Nat)
    (hn : ∃ m, n = 2 ^ (m + 1) - 2) :
    Inv hash (⟨List.replicate n .Empty, 0, 0⟩ : HashSet T) := by
  refine ⟨?_, ?_, ?_, ?_, ?_, ?_⟩
  · show (0 : Nat) = loadCount _
    unfold loadCount
    simp [List.countP_replicate, isLoaded]
  · show (0 : Nat) = liveCount _
    unfold liveCount
    simp [List.countP_replicate, isLive]
  · show 2 * 0 ≤ _
    omega
  · show ∃ m, (List.replicate n (BucketElement.Empty : BucketElement T)).length
      = 2 ^ (m + 1) - 2
    rw [List.length_replicate]
    exact hn
  · intro x
    unfold valCount
    show List.countP (isVal x) (List.replicate n .Empty) ≤ 1
    simp [List.countP_replicate, isVal]
  · intro x hx
    unfold member at hx
    have := List.eq_of_mem_replicate hx
    exact absurd this (by simp)

/-- The resize replay: folding the old buckets into an invariant-satisfying
accumulator preserves the invariant, never triggers a nested resize, and
rebuilds the counters from exactly the live values of the old table. -/
theorem readd_spec (hash : T → Nat) (fuel : Nat)
    (old : List (BucketElement T)) :
    ∀ (acc acc' : HashSet T),
    Inv hash acc →
    2 * (acc.loaded + old.countP isLive) ≤ acc.data.length →
    (∀ x : T, old.countP (isVal x) + valCount acc x ≤ 1) →
    readdWith (addFuel hash (fuel + 1)) old acc = some acc' →
    Inv hash acc' ∧
      acc'.data.length = acc.data.length ∧
      acc'.size = acc.size + old.countP isLive ∧
      acc'.loaded = acc.loaded + old.countP isLive ∧
      (∀ y, member acc' y ↔ (member acc y ∨ .NonEmpty y ∈ old)) := by
  induction old with
  | nil =>
    intro acc acc' hInv hcnt huniq h
    unfold readdWith at h
    simp only [Option.some.injEq] at h
    subst h
    refine ⟨hInv, rfl, by simp, by simp, fun y => by simp⟩
  | cons b rest ih =>
    intro acc acc' hInv hcnt huniq h
    unfold readdWith at h
    cases hb : b with
    | Empty =>
      subst hb
      have hlive : List.countP isLive (BucketElement.Empty :: rest)
          = List.countP isLive rest := by
        rw [List.countP_cons]
        simp [isLive]
      obtain ⟨h1, h2, h3, h4, h5⟩ := ih acc acc' hInv
        (by rw [hlive] at hcnt; exact hcnt)
        (by
          intro x
          have := huniq x
          rw [List.countP_cons] at this
          simp only [isVal, Bool.false_eq_true, if_false] at this
          omega)
        h
      refine ⟨h1, h2, ?_, ?_, ?_⟩
      · rw [hlive]; exact h3
      · rw [hlive]; exact h4
      · intro y
        rw [h5 y]
        simp
    | Deleted =>
      subst hb
      have hlive : List.countP isLive (BucketElement.Deleted :: rest)
          = List.countP isLive rest := by
        rw [List.countP_cons]
        simp [isLive]
      obtain ⟨h1, h2, h3, h4, h5⟩ := ih acc acc' hInv
        (by rw [hlive] at hcnt; exact hcnt)
        (by
          intro x
          have := huniq x
          rw [List.countP_cons] at this
          simp only [isVal, Bool.false_eq_true, if_false] at this
          omega)
        h
      refine ⟨h1, h2, ?_, ?_, ?_⟩
      · rw [hlive]; exact h3
      · rw [hlive]; exact h4
      · intro y
        rw [h5 y]
        simp
    | NonEmpty item =>
      subst hb
      have hlive : List.countP isLive (BucketElement.NonEmpty item :: rest)
          = List.countP isLive rest + 1 := by
        rw [List.countP_cons]
        simp [isLive]
      rw [hlive] at hcnt
      have hnt : ¬ 2 * acc.loaded ≥ acc.data.length := by omega
      have h' : (match addFuel hash (fuel + 1) acc item with
          | none => none
          | some (acc2, _) => readdWith (addFuel hash (fuel + 1)) rest acc2)
            = some acc' := h
      rw [addFuel_no_trigger hash fuel acc item hnt] at h'
      clear h
      -- dissect the match on the inner add
      cases hadd : addCore hash acc item with
      | none => rw [hadd] at h'; exact absurd h' (by simp)
      | some pair =>
        obtain ⟨acc2, bb⟩ := pair
        rw [hadd] at h' 
        have hload2 : 2 * acc.loaded + 2 ≤ acc.data.length := by omega
        obtain ⟨hInv2, hbiff, hmem2, htrue, hfalse⟩ :=
          addCore_spec hash acc acc2 item bb hInv hload2 hadd
        -- the re-added item is never already present
        have hcount_item : List.countP (isVal item)
            (BucketElement.NonEmpty item :: rest) =
            List.countP (isVal item) rest + 1 := by
          rw [List.countP_cons]
          simp [isVal]
        have huniq_item := huniq item
        rw [hcount_item] at huniq_item
        have hnm : ¬ member acc item := by
          rw [member_iff_valCount]
          omega
        have hbb : bb = true := hbiff.2 hnm
        subst hbb
        obtain ⟨hsz2, hld2, hlen2⟩ := htrue rfl
        -- apply the induction hypothesis to the tail
        obtain ⟨h1, h2, h3, h4, h5⟩ := ih acc2 acc' hInv2
          (by rw [hlen2, hld2]; omega)
          (by
            intro x
            have hu := huniq x
            rw [List.countP_cons] at hu
            by_cases hxm : member acc2 x
            · have hx1 : valCount acc2 x ≤ 1 := hInv2.uniq x
              rcases (hmem2 x).1 hxm with hxa | rfl
              · have : 0 < valCount acc x := (member_iff_valCount acc x).1 hxa
                omega
              · have : List.countP (isVal x) rest = 0 := by
                  simp only [isVal, decide_eq_true_eq, eq_self_iff_true,
                    if_true] at hu
                  omega
                omega
            · have : valCount acc2 x = 0 := valCount_zero_of_not_member acc2 x hxm
              omega)
          h' 
        refine ⟨h1, by rw [h2, hlen2], ?_, ?_, ?_⟩
        · rw [h3, hsz2, hlive]
          omega
        · rw [h4, hld2, hlive]
          omega
        · intro y
          rw [h5 y, hmem2 y]
          constructor
          · rintro ((hy | rfl) | hy)
            · exact Or.inl hy
            · exact Or.inr (List.mem_cons_self _ _)
            · exact Or.inr (List.mem_cons_of_mem _ hy)
          · rintro (hy | hy)
            · exact Or.inl (Or.inl hy)
            · rcases List.mem_cons.1 hy with hy | hy
              · injection hy with hy
                exact Or.inl (Or.inr hy)
              · exact Or.inr hy

/-- Full description of one `add` call on an invariant-satisfying state. -/
theorem add_spec (hash : T → Nat) (s s' : HashSet T) (x : T) (b : Bool)
    (hInv : Inv hash s) (h : add hash s x = some (s', b)) :
    Inv hash s' ∧ (b = true ↔ ¬ member s x) ∧
      (∀ y, member s' y ↔ (member s y ∨ y = x)) ∧
      (b = true → s'.size = s.size + 1) ∧
      (b = false → s'.size = s.size) ∧
      s'.data.length = (if 2 * s.loaded ≥ s.data.length
        then s.data.length * 2 + 2 else s.data.length) ∧
      (¬ 2 * s.loaded ≥ s.data.length → b = false → s' = s) ∧
      (s.loaded = s.size → s'.loaded = s'.size) := by
  unfold add at h
  by_cases ht : 2 * s.loaded ≥ s.data.length
  · -- the growth check fires: resize, then probe-and-insert
    have h' : (match readdWith (addFuel hash 1) s.data
          ⟨List.replicate (s.data.length * 2 + 2) .Empty, 0, 0⟩ with
        | none => none
        | some s1 => addCore hash s1 x) = some (s', b) := by
      rw [← addFuel_trigger hash 1 s x ht]
      exact h
    cases hread : readdWith (addFuel hash 1) s.data
        ⟨List.replicate (s.data.length * 2 + 2) .Empty, 0, 0⟩ with
    | none => rw [hread] at h'; exact absurd h' (by simp)
    | some s1 =>
      rw [hread] at h'
      obtain ⟨n, hn⟩ := hInv.cap_form
      have hpow : 2 ^ (n + 1 + 1) = 2 * 2 ^ (n + 1) := by
        rw [pow_succ]
        ring
      have hpow2 : 2 ≤ 2 ^ (n + 1) := by
        calc 2 = 2 ^ 1 := rfl
        _ ≤ 2 ^ (n + 1) := Nat.pow_le_pow_right (by omega) (by omega)
      have hcap2 : s.data.length * 2 + 2 = 2 ^ (n + 1 + 1) - 2 := by omega
      have hInit : Inv hash (⟨List.replicate (s.data.length * 2 + 2) .Empty,
          0, 0⟩ : HashSet T) := inv_fresh hash _ ⟨n + 1, hcap2⟩
      have hlenInit : (⟨List.replicate (s.data.length * 2 + 2)
          (BucketElement.Empty : BucketElement T), 0, 0⟩ :
          HashSet T).data.length = s.data.length * 2 + 2 := by
        show (List.replicate _ _).length = _
        rw [List.length_replicate]
      have hlive_le : List.countP isLive s.data ≤ s.data.length :=
        List.countP_le_length _
      have hvalInit : ∀ x : T, valCount (⟨List.replicate
          (s.data.length * 2 + 2) .Empty, 0, 0⟩ : HashSet T) x = 0 := by
        intro x
        unfold valCount
        show List.countP (isVal x) (List.replicate _ _) = 0
        simp [List.countP_replicate, isVal]
      obtain ⟨hInv1, hlen1, hsz1, hld1, hmem1⟩ :=
        readd_spec hash 0 s.data _ s1 hInit
          (by rw [hlenInit]; show 2 * (0 + _) ≤ _; omega)
          (by
            intro y
            have := hInv.uniq y
            rw [hvalInit y]
            unfold valCount at this
            omega)
          hread
      rw [hlenInit] at hlen1
      have hmemInit : ∀ y : T, ¬ member (⟨List.replicate
          (s.data.length * 2 + 2) .Empty, 0, 0⟩ : HashSet T) y := by
        intro y hy
        unfold member at hy
        have := List.eq_of_mem_replicate hy
        exact absurd this (by simp)
      have hmem1' : ∀ y, member s1 y ↔ member s y := by
        intro y
        rw [hmem1 y]
        unfold member
        constructor
        · rintro (hy | hy)
          · exact absurd hy (hmemInit y)
          · exact hy
        · exact Or.inr
      have hsz_live : s.size = List.countP isLive s.data := hInv.size_eq
      have hload2 : 2 * s1.loaded + 2 ≤ s1.data.length := by
        rw [hld1, hlen1]
        show 2 * (0 + _) + 2 ≤ _
        omega
      obtain ⟨hInv', hbiff, hmem', htrue, hfalse⟩ :=
        addCore_spec hash s1 s' x b hInv1 hload2 h'
      refine ⟨hInv', ?_, ?_, ?_, ?_, ?_, ?_, ?_⟩
      · rw [hbiff]
        constructor
        · intro hh hm; exact hh ((hmem1' x).2 hm)
        · intro hh hm; exact hh ((hmem1' x).1 hm)
      · intro y
        rw [hmem' y, hmem1' y]
      · intro hb
        rw [(htrue hb).1, hsz1]
        show 0 + _ + 1 = s.size + 1
        omega
      · intro hb
        rw [hfalse hb, hsz1]
        show 0 + _ = s.size
        omega
      · rw [if_pos ht]
        cases b with
        | true => rw [(htrue rfl).2.2, hlen1]
        | false => rw [hfalse rfl, hlen1]
      · intro hnt; exact absurd ht hnt
      · intro _
        have h1 : s1.loaded = s1.size := by
          rw [hld1, hsz1]
        cases b with
        | true =>
          have h2 := htrue rfl
          omega
        | false =>
          rw [hfalse rfl]
          exact h1
  · -- no growth: plain probe-and-insert
    have h' : addCore hash s x = some (s', b) := by
      rw [← addFuel_no_trigger hash 1 s x ht]
      exact h
    obtain ⟨hInv', hbiff, hmem', htrue, hfalse⟩ :=
      addCore_spec hash s s' x b hInv (load2_of_no_trigger hash s hInv ht) h'
    refine ⟨hInv', hbiff, hmem', fun hb => (htrue hb).1, ?_, ?_, ?_, ?_⟩
    · intro hb; rw [hfalse hb]
    · rw [if_neg ht]
      cases b with
      | true => exact (htrue rfl).2.2
      | false => rw [hfalse rfl]
    · intro _ hb
      exact hfalse hb
    · intro hls
      cases b with
      | true =>
        have h2 := htrue rfl
        omega
      | false =>
        rw [hfalse rfl]
        exact hls

/-- Every reachable state satisfies the invariant. -/
theorem reachable_inv (hash : T → Nat) (s : HashSet T)
    (h : Reachable hash s) : Inv hash s := by
  induction h with
  | start => exact inv_new hash
  | addStep s s' item b hr hadd ih =>
    exact (add_spec hash s s' item b ih hadd).1
  | removeStep s s' item b hr hrem ih =>
    cases b with
    | true => exact (remove_true_spec hash s s' item ih hrem).1
    | false => rw [remove_some_false hash s s' item hrem]; exact ih
  | clearStep s hr ih => exact inv_clear hash s

/-! ### Termination of the probe loop

The quadratic probe sequence `(h + k^2) mod 2^64 mod m` reaches *every* bucket
index of every reachable capacity `m = 2*m'` (`m'` odd): the `mod 2^64`
wraparound makes the square residues dense enough.  Concretely, for a target
index `e` we solve `2^32*a + b` with `b ∈ {1, 2}` fixing the parity and `a`
solving a linear congruence modulo the odd part `m'`. -/

theorem solve_linear_mod (m g r v : Nat) (hm : 0 < m)
    (hco : Nat.Coprime g m) :
    ∃ a0, a0 < m ∧ (g * a0 + v) ≡ r [MOD m] := by
  haveI : NeZero m := ⟨by omega⟩
  set u : (ZMod m)ˣ := ZMod.unitOfCoprime g hco with hu
  set w : ZMod m := (r : ZMod m) - (v : ZMod m) with hw
  refine ⟨((u⁻¹ : (ZMod m)ˣ) * w : ZMod m).val, ZMod.val_lt _, ?_⟩
  have hcast : ((g * ((u⁻¹ : (ZMod m)ˣ) * w : ZMod m).val + v : Nat) : ZMod m)
      = ((r : Nat) : ZMod m) := by
    push_cast
    rw [show (((((u⁻¹ : (ZMod m)ˣ) * w : ZMod m)).val : Nat) : ZMod m)
      = ((u⁻¹ : (ZMod m)ˣ) * w : ZMod m) by simp [ZMod.natCast_val, ZMod.cast_id]]
    rw [show ((g : Nat) : ZMod m) = (u : ZMod m) by
      rw [hu, ZMod.coe_unitOfCoprime]]
    rw [show ((u : ZMod m) * ((u⁻¹ : (ZMod m)ˣ) * w : ZMod m)) = w by
      rw [← mul_assoc, Units.mul_inv, one_mul]]
    rw [hw]
    ring
  exact (ZMod.natCast_eq_natCast_iff _ _ _).1 hcast

theorem window_fit (m A a0 : Nat) (hm : 0 < m) (ha0 : a0 < m) :
    ∃ a q, a = a0 + m * q ∧ A ≤ a ∧ a < A + m := by
  have hd := Nat.div_add_mod (A + m - 1 - a0) m
  have hr : (A + m - 1 - a0) % m < m := Nat.mod_lt _ hm
  exact ⟨a0 + m * ((A + m - 1 - a0) / m), (A + m - 1 - a0) / m, rfl,
    by omega, by omega⟩

theorem coprime_two_pow_odd (k m : Nat) (hodd : m % 2 = 1) :
    Nat.Coprime (2 ^ k) m :=
  Nat.Coprime.pow_left k (Nat.coprime_two_left.2 (Nat.odd_iff.2 hodd))

/-- Core coverage: for `H < 2^64` and any target index `e < 2*m'` with `m'`
odd and not too large, some probe step `t` within one period lands on `e`. -/
theorem exists_probe_hit_aux (m' : Nat) (hodd : m' % 2 = 1)
    (hm : m' ≤ 2 ^ 28) (H e : Nat) (hH : H < 2 ^ 64) (he : e < 2 * m') :
    ∃ t, 1 ≤ t ∧ t ≤ 2 ^ 63 ∧ (H + t * t) % 2 ^ 64 % (2 * m') = e := by
  have hm0 : 0 < m' := by omega
  have hco2 : Nat.Coprime 2 m' := Nat.coprime_two_left.2 (Nat.odd_iff.2 hodd)
  by_cases hwrap : H < 2 ^ 63
  · -- no wraparound needed: `H + s < 2^64`
    by_cases hpar : (H + e) % 2 = 1
    · -- parity fixed by b = 1
      obtain ⟨a0, ha0, hsol⟩ := solve_linear_mod m' (2 ^ 33 * 1) e
        (1 * 1 + H) hm0 (by simpa using coprime_two_pow_odd 33 m' hodd)
      have hmod2 : (2 ^ 33 * 1 * a0 + (1 * 1 + H)) ≡ e [MOD 2] := by
        unfold Nat.ModEq
        omega
      have hmodm : (2 ^ 33 * 1 * a0 + (1 * 1 + H)) ≡ e [MOD 2 * m'] :=
        (Nat.modEq_and_modEq_iff_modEq_mul hco2).1 ⟨hmod2, hsol⟩
      refine ⟨2 ^ 32 * a0 + 1, by omega, by omega, ?_⟩
      have ht2 : (2 ^ 32 * a0 + 1) * (2 ^ 32 * a0 + 1)
          = (2 ^ 33 * 1 * a0 + 1 * 1) + 2 ^ 64 * (a0 * a0) := by ring
      rw [ht2]
      have hs_small : 2 ^ 33 * 1 * a0 + 1 * 1 < 2 ^ 62 + 4 := by
        have : 2 ^ 33 * 1 * a0 ≤ 2 ^ 33 * (2 ^ 28) := by
          have : a0 ≤ 2 ^ 28 := by omega
          calc 2 ^ 33 * 1 * a0 = 2 ^ 33 * a0 := by ring
          _ ≤ 2 ^ 33 * 2 ^ 28 := Nat.mul_le_mul_left _ this
        omega
      have hX : (H + ((2 ^ 33 * 1 * a0 + 1 * 1) + 2 ^ 64 * (a0 * a0)))
          % 2 ^ 64 = H + (2 ^ 33 * 1 * a0 + 1 * 1) := by
        rw [show H + ((2 ^ 33 * 1 * a0 + 1 * 1) + 2 ^ 64 * (a0 * a0))
          = (H + (2 ^ 33 * 1 * a0 + 1 * 1)) + 2 ^ 64 * (a0 * a0) by ring,
          Nat.add_mul_mod_self_left]
        exact Nat.mod_eq_of_lt (by omega)
      rw [hX]
      have := hmodm
      unfold Nat.ModEq at this
      rw [Nat.mod_eq_of_lt he] at this
      rw [show H + (2 ^ 33 * 1 * a0 + 1 * 1)
        = 2 ^ 33 * 1 * a0 + (1 * 1 + H) by ring]
      exact this
    · -- parity fixed by b = 2
      obtain ⟨a0, ha0, hsol⟩ := solve_linear_mod m' (2 ^ 33 * 2) e
        (2 * 2 + H) hm0 (by
          have := coprime_two_pow_odd 34 m' hodd
          rw [show (2 : Nat) ^ 34 = 2 ^ 33 * 2 by ring] at this
          exact this)
      have hmod2 : (2 ^ 33 * 2 * a0 + (2 * 2 + H)) ≡ e [MOD 2] := by
        unfold Nat.ModEq
        omega
      have hmodm : (2 ^ 33 * 2 * a0 + (2 * 2 + H)) ≡ e [MOD 2 * m'] :=
        (Nat.modEq_and_modEq_iff_modEq_mul hco2).1 ⟨hmod2, hsol⟩
      refine ⟨2 ^ 32 * a0 + 2, by omega, by omega, ?_⟩
      have ht2 : (2 ^ 32 * a0 + 2) * (2 ^ 32 * a0 + 2)
          = (2 ^ 33 * 2 * a0 + 2 * 2) + 2 ^ 64 * (a0 * a0) := by ring
      rw [ht2]
      have hs_small : 2 ^ 33 * 2 * a0 + 2 * 2 < 2 ^ 63 + 4 := by
        have : 2 ^ 33 * 2 * a0 ≤ 2 ^ 34 * (2 ^ 28) := by
          have : a0 ≤ 2 ^ 28 := by omega
          calc 2 ^ 33 * 2 * a0 = 2 ^ 34 * a0 := by ring
          _ ≤ 2 ^ 34 * 2 ^ 28 := Nat.mul_le_mul_left _ this
        omega
      have hX : (H + ((2 ^ 33 * 2 * a0 + 2 * 2) + 2 ^ 64 * (a0 * a0)))
          % 2 ^ 64 = H + (2 ^ 33 * 2 * a0 + 2 * 2) := by
        rw [show H + ((2 ^ 33 * 2 * a0 + 2 * 2) + 2 ^ 64 * (a0 * a0))
          = (H + (2 ^ 33 * 2 * a0 + 2 * 2)) + 2 ^ 64 * (a0 * a0) by ring,
          Nat.add_mul_mod_self_left]
        exact Nat.mod_eq_of_lt (by omega)
      rw [hX]
      have := hmodm
      unfold Nat.ModEq at this
      rw [Nat.mod_eq_of_lt he] at this
      rw [show H + (2 ^ 33 * 2 * a0 + 2 * 2)
        = 2 ^ 33 * 2 * a0 + (2 * 2 + H) by ring]
      exact this
  · -- wraparound: `2^64 ≤ H + s < 2^65`
    push_neg at hwrap
    by_cases hpar : (H + e) % 2 = 1
    · -- parity fixed by b = 1
      obtain ⟨a0, ha0, hsol⟩ := solve_linear_mod m' (2 ^ 33 * 1) (e + 2 ^ 64)
        (1 * 1 + H) hm0 (by simpa using coprime_two_pow_odd 33 m' hodd)
      obtain ⟨a, q, haq, hA1, hA2⟩ := window_fit m'
        ((2 ^ 64 - H + 2 ^ 33 * 1 - 1) / (2 ^ 33 * 1)) a0 hm0 ha0
      have hdiv := Nat.div_add_mod (2 ^ 64 - H + 2 ^ 33 * 1 - 1) (2 ^ 33 * 1)
      have hrlt : (2 ^ 64 - H + 2 ^ 33 * 1 - 1) % (2 ^ 33 * 1) < 2 ^ 33 * 1 :=
        Nat.mod_lt _ (by omega)
      have hsol_a : (2 ^ 33 * 1 * a + (1 * 1 + H)) ≡ (e + 2 ^ 64) [MOD m'] := by
        have hshape : 2 ^ 33 * 1 * a + (1 * 1 + H)
            = (2 ^ 33 * 1 * a0 + (1 * 1 + H)) + m' * (2 ^ 33 * 1 * q) := by
          rw [haq]
          ring
        rw [hshape]
        unfold Nat.ModEq at hsol ⊢
        rw [Nat.add_mul_mod_self_left]
        exact hsol
      have hmod2 : (2 ^ 33 * 1 * a + (1 * 1 + H)) ≡ (e + 2 ^ 64) [MOD 2] := by
        unfold Nat.ModEq
        omega
      have hmodm : (2 ^ 33 * 1 * a + (1 * 1 + H)) ≡ (e + 2 ^ 64) [MOD 2 * m'] :=
        (Nat.modEq_and_modEq_iff_modEq_mul hco2).1 ⟨hmod2, hsol_a⟩
      refine ⟨2 ^ 32 * a + 1, by omega, by omega, ?_⟩
      have ht2 : (2 ^ 32 * a + 1) * (2 ^ 32 * a + 1)
          = (2 ^ 33 * 1 * a + 1 * 1) + 2 ^ 64 * (a * a) := by ring
      rw [ht2, show H + ((2 ^ 33 * 1 * a + 1 * 1) + 2 ^ 64 * (a * a))
        = (H + (2 ^ 33 * 1 * a + 1 * 1)) + 2 ^ 64 * (a * a) by ring,
        Nat.add_mul_mod_self_left]
      have hlow : 2 ^ 64 ≤ H + (2 ^ 33 * 1 * a + 1 * 1) := by omega
      have hhigh : H + (2 ^ 33 * 1 * a + 1 * 1) - 2 ^ 64 < 2 ^ 64 := by omega
      have hsub : (H + (2 ^ 33 * 1 * a + 1 * 1)) % 2 ^ 64
          = H + (2 ^ 33 * 1 * a + 1 * 1) - 2 ^ 64 := by
        rw [Nat.mod_eq_sub_mod hlow]
        exact Nat.mod_eq_of_lt hhigh
      rw [hsub]
      have hfin : (H + (2 ^ 33 * 1 * a + 1 * 1) - 2 ^ 64) ≡ e [MOD 2 * m'] := by
        apply Nat.ModEq.add_right_cancel' (2 ^ 64)
        have hcancel : H + (2 ^ 33 * 1 * a + 1 * 1) - 2 ^ 64 + 2 ^ 64
            = 2 ^ 33 * 1 * a + (1 * 1 + H) := by omega
        rw [hcancel]
        exact hmodm
      have hfin2 := hfin
      unfold Nat.ModEq at hfin2
      rw [Nat.mod_eq_of_lt he] at hfin2
      exact hfin2
    · -- parity fixed by b = 2
      obtain ⟨a0, ha0, hsol⟩ := solve_linear_mod m' (2 ^ 33 * 2) (e + 2 ^ 64)
        (2 * 2 + H) hm0 (by
          have hc := coprime_two_pow_odd 34 m' hodd
          rw [show (2 : Nat) ^ 34 = 2 ^ 33 * 2 by ring] at hc
          exact hc)
      obtain ⟨a, q, haq, hA1, hA2⟩ := window_fit m'
        ((2 ^ 64 - H + 2 ^ 33 * 2 - 1) / (2 ^ 33 * 2)) a0 hm0 ha0
      have hdiv := Nat.div_add_mod (2 ^ 64 - H + 2 ^ 33 * 2 - 1) (2 ^ 33 * 2)
      have hrlt : (2 ^ 64 - H + 2 ^ 33 * 2 - 1) % (2 ^ 33 * 2) < 2 ^ 33 * 2 :=
        Nat.mod_lt _ (by omega)
      have hsol_a : (2 ^ 33 * 2 * a + (2 * 2 + H)) ≡ (e + 2 ^ 64) [MOD m'] := by
        have hshape : 2 ^ 33 * 2 * a + (2 * 2 + H)
            = (2 ^ 33 * 2 * a0 + (2 * 2 + H)) + m' * (2 ^ 33 * 2 * q) := by
          rw [haq]
          ring
        rw [hshape]
        unfold Nat.ModEq at hsol ⊢
        rw [Nat.add_mul_mod_self_left]
        exact hsol
      have hmod2 : (2 ^ 33 * 2 * a + (2 * 2 + H)) ≡ (e + 2 ^ 64) [MOD 2] := by
        unfold Nat.ModEq
        omega
      have hmodm : (2 ^ 33 * 2 * a + (2 * 2 + H)) ≡ (e + 2 ^ 64) [MOD 2 * m'] :=
        (Nat.modEq_and_modEq_iff_modEq_mul hco2).1 ⟨hmod2, hsol_a⟩
      refine ⟨2 ^ 32 * a + 2, by omega, by omega, ?_⟩
      have ht2 : (2 ^ 32 * a + 2) * (2 ^ 32 * a + 2)
          = (2 ^ 33 * 2 * a + 2 * 2) + 2 ^ 64 * (a * a) := by ring
      rw [ht2, show H + ((2 ^ 33 * 2 * a + 2 * 2) + 2 ^ 64 * (a * a))
        = (H + (2 ^ 33 * 2 * a + 2 * 2)) + 2 ^ 64 * (a * a) by ring,
        Nat.add_mul_mod_self_left]
      have hlow : 2 ^ 64 ≤ H + (2 ^ 33 * 2 * a + 2 * 2) := by omega
      have hhigh : H + (2 ^ 33 * 2 * a + 2 * 2) - 2 ^ 64 < 2 ^ 64 := by omega
      have hsub : (H + (2 ^ 33 * 2 * a + 2 * 2)) % 2 ^ 64
          = H + (2 ^ 33 * 2 * a + 2 * 2) - 2 ^ 64 := by
        rw [Nat.mod_eq_sub_mod hlow]
        exact Nat.mod_eq_of_lt hhigh
      rw [hsub]
      have hfin : (H + (2 ^ 33 * 2 * a + 2 * 2) - 2 ^ 64) ≡ e [MOD 2 * m'] := by
        apply Nat.ModEq.add_right_cancel' (2 ^ 64)
        have hcancel : H + (2 ^ 33 * 2 * a + 2 * 2) - 2 ^ 64 + 2 ^ 64
            = 2 ^ 33 * 2 * a + (2 * 2 + H) := by omega
        rw [hcancel]
        exact hmodm
      have hfin2 := hfin
      unfold Nat.ModEq at hfin2
      rw [Nat.mod_eq_of_lt he] at hfin2
      exact hfin2

/-- On a table of a reachable capacity, the probe for any item can reach any
target bucket; in particular it stops within one period whenever an `Empty`
bucket exists. -/
theorem exists_stop (hash : T → Nat) (s : HashSet T) (item : T) (e : Nat)
    (hcap : ∃ n, s.data.length = 2 ^ (n + 1) - 2)
    (hlen : 0 < s.data.length) (hbound : s.data.length ≤ 2 ^ 29 - 2)
    (he : e < s.data.length) (hbk : bucketAt s e = .Empty) :
    ∃ t, 1 ≤ t ∧ t ≤ PROBE_PERIOD ∧ stopAt hash s item t = true := by
  obtain ⟨n, hn⟩ := hcap
  have hn1 : 1 ≤ n := by
    rcases Nat.eq_zero_or_pos n with rfl | h
    · rw [hn] at hlen
      norm_num at hlen
    · exact h
  have hpow : 2 ^ (n + 1) = 2 * 2 ^ n := by
    rw [pow_succ]
    ring
  have hpow1 : 2 ≤ 2 ^ n := by
    calc 2 = 2 ^ 1 := rfl
    _ ≤ 2 ^ n := Nat.pow_le_pow_right (by omega) hn1
  have hpow_even : 2 ^ n % 2 = 0 := by
    obtain ⟨n', rfl⟩ : ∃ n', n = n' + 1 := ⟨n - 1, by omega⟩
    rw [pow_succ]
    omega
  have hm : s.data.length = 2 * (2 ^ n - 1) := by omega
  have hodd : (2 ^ n - 1) % 2 = 1 := by omega
  have hmb : 2 ^ n - 1 ≤ 2 ^ 28 := by omega
  obtain ⟨t, ht1, ht2, hhit⟩ := exists_probe_hit_aux (2 ^ n - 1) hodd hmb
    (hash item % 2 ^ 64) e (Nat.mod_lt _ (by norm_num)) (by rw [← hm]; exact he)
  refine ⟨t, ht1, ht2, ?_⟩
  have hmodfold : (hash item + t * t) % 2 ^ 64
      = (hash item % 2 ^ 64 + t * t) % 2 ^ 64 := by
    conv_lhs => rw [Nat.add_mod]
    conv_rhs => rw [Nat.add_mod]
    rw [Nat.mod_mod_of_dvd _ (dvd_refl (2 ^ 64))]
  have hpp : probePos hash s item t = e := by
    unfold probePos
    rw [probeIndex_eq]
    show (hash item + t * t) % 2 ^ 64 % s.data.length = e
    rw [hmodfold, hm]
    exact hhit
  unfold stopAt
  rw [hpp, hbk]
  rfl

/-- `index_of` returns on every invariant-satisfying state whose table is
non-empty and of any capacity the set can actually have in memory. -/
theorem index_of_total (hash : T → Nat) (s : HashSet T) (item : T)
    (hInv : Inv hash s) (hlen : 0 < s.data.length)
    (hbound : s.data.length ≤ 2 ^ 29 - 2) :
    (index_of hash s item).isSome := by
  have hload : loadCount s < s.data.length := by
    have h1 := hInv.load_le
    have h2 := hInv.loaded_eq
    omega
  obtain ⟨e, he, hbk⟩ := exists_empty_bucket s hload
  obtain ⟨t, ht1, ht2, hstop⟩ := exists_stop hash s item e hInv.cap_form
    hlen hbound he hbk
  exact index_of_isSome hash s item t (by omega) ht1 ht2 hstop

theorem contains_total (hash : T → Nat) (s : HashSet T) (item : T)
    (hInv : Inv hash s) (hbound : s.data.length ≤ 2 ^ 29 - 2) :
    (contains hash s item).isSome := by
  unfold contains
  by_cases hsz : s.size = 0
  · rw [if_pos hsz]
    rfl
  · rw [if_neg hsz]
    have hlen : 0 < s.data.length := by
      have h1 := hInv.size_eq
      have h2 : liveCount s ≤ s.data.length := by
        unfold liveCount
        exact List.countP_le_length _
      omega
    have hio := index_of_total hash s item hInv hlen hbound
    cases hioeq : index_of hash s item with
    | none => rw [hioeq] at hio; exact absurd hio (by simp)
    | some i =>
      show (match bucketAt s i with
        | BucketElement.NonEmpty _ => some true
        | _ => some false).isSome = true
      cases hbk : bucketAt s i <;> simp

theorem remove_total (hash : T → Nat) (s : HashSet T) (item : T)
    (hInv : Inv hash s) (hbound : s.data.length ≤ 2 ^ 29 - 2) :
    (remove hash s item).isSome := by
  unfold remove
  by_cases hsz : s.size = 0
  · rw [if_pos hsz]
    rfl
  · rw [if_neg hsz]
    have hlen : 0 < s.data.length := by
      have h1 := hInv.size_eq
      have h2 : liveCount s ≤ s.data.length := by
        unfold liveCount
        exact List.countP_le_length _
      omega
    have hio := index_of_total hash s item hInv hlen hbound
    cases hioeq : index_of hash s item with
    | none => rw [hioeq] at hio; exact absurd hio (by simp)
    | some i =>
      show (match bucketAt s i with
        | BucketElement.NonEmpty _ =>
          some ((⟨s.data.set i .Deleted, s.size - 1, s.loaded⟩ : HashSet T),
            true)
        | _ => some (s, false)).isSome = true
      cases hbk : bucketAt s i <;> simp

/-- The resize replay never fails on an invariant-satisfying accumulator of
realisable capacity. -/
theorem readd_total (hash : T → Nat) (fuel : Nat)
    (old : List (BucketElement T)) :
    ∀ acc : HashSet T, Inv hash acc →
    2 * (acc.loaded + old.countP isLive) ≤ acc.data.length →
    (∀ x : T, old.countP (isVal x) + valCount acc x ≤ 1) →
    0 < acc.data.length → acc.data.length ≤ 2 ^ 29 - 2 →
    (readdWith (addFuel hash (fuel + 1)) old acc).isSome := by
  induction old with
  | nil =>
    intro acc _ _ _ _ _
    simp [readdWith]
  | cons b rest ih =>
    intro acc hInv hcnt huniq hlen hbound
    cases b with
    | Empty =>
      show (readdWith (addFuel hash (fuel + 1)) rest acc).isSome
      refine ih acc hInv ?_ ?_ hlen hbound
      · have : List.countP isLive (BucketElement.Empty :: rest)
            = List.countP isLive rest := by
          rw [List.countP_cons]; simp [isLive]
        omega
      · intro x
        have := huniq x
        rw [List.countP_cons] at this
        simp only [isVal, Bool.false_eq_true, if_false] at this
        omega
    | Deleted =>
      show (readdWith (addFuel hash (fuel + 1)) rest acc).isSome
      refine ih acc hInv ?_ ?_ hlen hbound
      · have : List.countP isLive (BucketElement.Deleted :: rest)
            = List.countP isLive rest := by
          rw [List.countP_cons]; simp [isLive]
        omega
      · intro x
        have := huniq x
        rw [List.countP_cons] at this
        simp only [isVal, Bool.false_eq_true, if_false] at this
        omega
    | NonEmpty item =>
      have hlive : List.countP isLive (BucketElement.NonEmpty item :: rest)
          = List.countP isLive rest + 1 := by
        rw [List.countP_cons]; simp [isLive]
      rw [hlive] at hcnt
      have hnt : ¬ 2 * acc.loaded ≥ acc.data.length := by omega
      show (match addFuel hash (fuel + 1) acc item with
        | none => none
        | some (acc2, _) =>
          readdWith (addFuel hash (fuel + 1)) rest acc2).isSome
      rw [addFuel_no_trigger hash fuel acc item hnt]
      have hio := index_of_total hash acc item hInv hlen hbound
      have hsome := addCore_isSome hash acc item hio
      cases hadd : addCore hash acc item with
      | none => rw [hadd] at hsome; exact absurd hsome (by simp)
      | some pair =>
        obtain ⟨acc2, bb⟩ := pair
        have hload2 : 2 * acc.loaded + 2 ≤ acc.data.length := by omega
        obtain ⟨hInv2, hbiff, hmem2, htrue, hfalse⟩ :=
          addCore_spec hash acc acc2 item bb hInv hload2 hadd
        have hcount_item : List.countP (isVal item)
            (BucketElement.NonEmpty item :: rest)
            = List.countP (isVal item) rest + 1 := by
          rw [List.countP_cons]; simp [isVal]
        have huniq_item := huniq item
        rw [hcount_item] at huniq_item
        have hnm : ¬ member acc item := by
          rw [member_iff_valCount]
          omega
        have hbb : bb = true := hbiff.2 hnm
        subst hbb
        obtain ⟨hsz2, hld2, hlen2⟩ := htrue rfl
        refine ih acc2 hInv2 ?_ ?_ (by omega) (by omega)
        · rw [hlen2, hld2]
          omega
        · intro x
          have hu := huniq x
          rw [List.countP_cons] at hu
          by_cases hxm : member acc2 x
          · have hx1 : valCount acc2 x ≤ 1 := hInv2.uniq x
            rcases (hmem2 x).1 hxm with hxa | rfl
            · have : 0 < valCount acc x := (member_iff_valCount acc x).1 hxa
              omega
            · have : List.countP (isVal x) rest = 0 := by
                simp only [isVal, decide_eq_true_eq, eq_self_iff_true,
                  if_true] at hu
                omega
              omega
          · have : valCount acc2 x = 0 :=
              valCount_zero_of_not_member acc2 x hxm
            omega

/-- `add` returns on every invariant-satisfying state of realisable
capacity (at most `2^28 - 2`, so that one growth step stays realisable). -/
theorem add_total (hash : T → Nat) (s : HashSet T) (item : T)
    (hInv : Inv hash s) (hbound : s.data.length ≤ 2 ^ 28 - 2) :
    (add hash s item).isSome := by
  unfold add
  by_cases ht : 2 * s.loaded ≥ s.data.length
  · rw [addFuel_trigger hash 1 s item ht]
    obtain ⟨n, hn⟩ := hInv.cap_form
    have hpow : 2 ^ (n + 1 + 1) = 2 * 2 ^ (n + 1) := by
      rw [pow_succ]; ring
    have hpow2 : 2 ≤ 2 ^ (n + 1) := by
      calc 2 = 2 ^ 1 := rfl
      _ ≤ 2 ^ (n + 1) := Nat.pow_le_pow_right (by omega) (by omega)
    have hcap2 : s.data.length * 2 + 2 = 2 ^ (n + 1 + 1) - 2 := by omega
    have hInit : Inv hash (⟨List.replicate (s.data.length * 2 + 2) .Empty,
        0, 0⟩ : HashSet T) := inv_fresh hash _ ⟨n + 1, hcap2⟩
    have hlenInit : (⟨List.replicate (s.data.length * 2 + 2)
        (BucketElement.Empty : BucketElement T), 0, 0⟩ :
        HashSet T).data.length = s.data.length * 2 + 2 := by
      show (List.replicate _ _).length = _
      rw [List.length_replicate]
    have hvalInit : ∀ x : T, valCount (⟨List.replicate
        (s.data.length * 2 + 2) .Empty, 0, 0⟩ : HashSet T) x = 0 := by
      intro x
      unfold valCount
      show List.countP (isVal x) (List.replicate _ _) = 0
      simp [List.countP_replicate, isVal]
    have hlive_le : List.countP isLive s.data ≤ s.data.length :=
      List.countP_le_length _
    have hread := readd_total hash 0 s.data
      ⟨List.replicate (s.data.length * 2 + 2) .Empty, 0, 0⟩ hInit
      (by rw [hlenInit]; show 2 * (0 + _) ≤ _; omega)
      (by
        intro y
        have := hInv.uniq y
        rw [hvalInit y]
        unfold valCount at this
        omega)
      (by rw [hlenInit]; omega)
      (by rw [hlenInit]; omega)
    have hread1 : (readdWith (addFuel hash 1) s.data
        ⟨List.replicate (s.data.length * 2 + 2) .Empty, 0, 0⟩).isSome :=
      hread
    cases hreadeq : readdWith (addFuel hash 1) s.data
        ⟨List.replicate (s.data.length * 2 + 2) .Empty, 0, 0⟩ with
    | none =>
      rw [hreadeq] at hread1
      exact absurd hread1 (by simp)
    | some s1 =>
      show (addCore hash s1 item).isSome
      obtain ⟨hInv1, hlen1, hsz1, hld1, hmem1⟩ :=
        readd_spec hash 0 s.data _ s1 hInit
          (by rw [hlenInit]; show 2 * (0 + _) ≤ _; omega)
          (by
            intro y
            have := hInv.uniq y
            rw [hvalInit y]
            unfold valCount at this
            omega)
          hreadeq
      rw [hlenInit] at hlen1
      exact addCore_isSome hash s1 item
        (index_of_total hash s1 item hInv1 (by omega) (by omega))
  · rw [addFuel_no_trigger hash 1 s item ht]
    have hlen : 0 < s.data.length := by omega
    exact addCore_isSome hash s item
      (index_of_total hash s item hInv hlen (by omega))

/-! ### Observable correctness of `contains` and `remove` -/

theorem member_size_pos (hash : T → Nat) (s : HashSet T) (x : T)
    (hInv : Inv hash s) (hmem : member s x) : 0 < s.size := by
  have h1 := (member_iff_valCount s x).1 hmem
  have h2 : valCount s x ≤ liveCount s := by
    unfold valCount liveCount
    exact List.countP_mono_left (fun b _ hb => by
      rw [isVal_iff x b] at hb
      rw [hb]
      rfl)
  have h3 := hInv.size_eq
  omega

theorem member_len_pos (s : HashSet T) (x : T) (hmem : member s x) :
    0 < s.data.length := by
  obtain ⟨i, hi, _⟩ := (member_iff_getD s x).1 hmem
  omega

theorem contains_true_of_member (hash : T → Nat) (s : HashSet T) (x : T)
    (hInv : Inv hash s) (hmem : member s x) :
    contains hash s x = some true := by
  have hsz := member_size_pos hash s x hInv hmem
  have hlen := member_len_pos s x hmem
  obtain ⟨t, hFS, hb⟩ := hInv.found x hmem
  have hio := index_of_of_firstStop hash s x t (by omega) hFS
  unfold contains
  rw [if_neg (by omega), hio]
  show (match bucketAt s (probePos hash s x t) with
    | BucketElement.NonEmpty _ => some true
    | _ => some false) = some true
  rw [hb]

theorem contains_false_of_not_member (hash : T → Nat) (s : HashSet T)
    (x : T) (hInv : Inv hash s) (hbound : s.data.length ≤ 2 ^ 29 - 2)
    (hnm : ¬ member s x) : contains hash s x = some false := by
  unfold contains
  by_cases hsz : s.size = 0
  · rw [if_pos hsz]
  · rw [if_neg hsz]
    have hlen : 0 < s.data.length := by
      have h1 := hInv.size_eq
      have h2 : liveCount s ≤ s.data.length := List.countP_le_length _
      omega
    have hio := index_of_total hash s x hInv hlen hbound
    cases hioeq : index_of hash s x with
    | none => rw [hioeq] at hio; exact absurd hio (by simp)
    | some i =>
      show (match bucketAt s i with
        | BucketElement.NonEmpty _ => some true
        | _ => some false) = some false
      have hb := (index_of_bucket hash s x i hioeq).2
      have hi := (index_of_bucket hash s x i hioeq).1
      rcases found_index_true hb with hbk | hbk
      · rw [hbk]
      · exact absurd ((member_iff_getD s x).2 ⟨i, hi, hbk⟩) hnm

theorem remove_of_member (hash : T → Nat) (s : HashSet T) (x : T)
    (hInv : Inv hash s) (hmem : member s x) :
    ∃ s1, remove hash s x = some (s1, true) := by
  have hsz := member_size_pos hash s x hInv hmem
  obtain ⟨t, hFS, hb⟩ := hInv.found x hmem
  have hio := index_of_of_firstStop hash s x t
    (by have := member_len_pos s x hmem; omega) hFS
  unfold remove
  rw [if_neg (by omega), hio]
  refine ⟨⟨s.data.set (probePos hash s x t) .Deleted, s.size - 1,
    s.loaded⟩, ?_⟩
  show (match bucketAt s (probePos hash s x t) with
    | BucketElement.NonEmpty _ =>
      some ((⟨s.data.set (probePos hash s x t) .Deleted, s.size - 1,
        s.loaded⟩ : HashSet T), true)
    | _ => some (s, false)) = _
  rw [hb]

/-! ### Sequences of inserts -/

theorem runAdds_spec (hash : T → Nat) (xs : List T) :
    ∀ s : HashSet T, Inv hash s → s.loaded = s.size →
    s.data.length ≤ 4 * s.size + 2 →
    s.size + xs.length ≤ 2 ^ 25 →
    ∃ s', runAdds hash s xs = some s' ∧ Inv hash s' ∧
      s'.loaded = s'.size ∧ s'.data.length ≤ 4 * s'.size + 2 ∧
      s.size ≤ s'.size ∧ s'.size ≤ s.size + xs.length ∧
      (∀ y, member s' y ↔ (member s y ∨ y ∈ xs)) ∧
      (xs.Nodup → (∀ x ∈ xs, ¬ member s x) →
        s'.size = s.size + xs.length) := by
  induction xs with
  | nil =>
    intro s hInv hls hlen hbudget
    exact ⟨s, rfl, hInv, hls, hlen, Nat.le_refl _, by omega,
      fun y => by simp, fun _ _ => by simp⟩
  | cons x rest ih =>
    intro s hInv hls hlen hbudget
    have hbound : s.data.length ≤ 2 ^ 28 - 2 := by omega
    have htot := add_total hash s x hInv hbound
    cases heq : add hash s x with
    | none => rw [heq] at htot; exact absurd htot (by simp)
    | some pair =>
      obtain ⟨s1, b⟩ := pair
      obtain ⟨hInv1, hbiff, hmem1, hsizeT, hsizeF, hlen1, hnores, hld1⟩ :=
        add_spec hash s s1 x b hInv heq
      have hsz_mono : s.size ≤ s1.size ∧ s1.size ≤ s.size + 1 := by
        cases b with
        | true => have := hsizeT rfl; omega
        | false => have := hsizeF rfl; omega
      have hlenb : s1.data.length ≤ 4 * s1.size + 2 := by
        by_cases ht : 2 * s.loaded ≥ s.data.length
        · rw [hlen1, if_pos ht]
          omega
        · rw [hlen1, if_neg ht]
          omega
      obtain ⟨s', hrun, hInv', hls', hlen', hmono', hub', hmem', hnd'⟩ :=
        ih s1 hInv1 (hld1 hls) hlenb (by simp at hbudget ⊢; omega)
      refine ⟨s', ?_, hInv', hls', hlen', by omega, by simp; omega, ?_, ?_⟩
      · show (match add hash s x with
          | none => none
          | some (s2, _) => runAdds hash s2 rest) = some s'
        rw [heq]
        exact hrun
      · intro y
        rw [hmem' y, hmem1 y, List.mem_cons]
        constructor
        · rintro ((hy | rfl) | hy)
          · exact Or.inl hy
          · exact Or.inr (Or.inl rfl)
          · exact Or.inr (Or.inr hy)
        · rintro (hy | rfl | hy)
          · exact Or.inl (Or.inl hy)
          · exact Or.inl (Or.inr rfl)
          · exact Or.inr hy
      · intro hnd hfresh
        have hxnew : ¬ member s x := hfresh x (List.mem_cons_self _ _)
        have hb : b = true := hbiff.2 hxnew
        subst hb
        have hsz1 : s1.size = s.size + 1 := hsizeT rfl
        have hxrest : x ∉ rest := (List.nodup_cons.1 hnd).1
        have hfinal := hnd' (List.nodup_cons.1 hnd).2 (by
          intro z hz
          rw [hmem1 z]
          rintro (hzs | rfl)
          · exact hfresh z (List.mem_cons_of_mem _ hz) hzs
          · exact hxrest hz)
        rw [hfinal, hsz1]
        simp
        omega

/-! ### The claims -/

/-- Claim C1: for every sequence of `add` calls on a set built from `new()`,
`contains(x)` returns `true` for every value `x` that was added (in
particular immediately after `add(x)`), and after inserting `N` distinct
values — regardless of how many resizes occur — all `N` remain retrievable
via `contains` and `size() == N`.  (Stated for sequences of at most `2^25`
inserts, which covers every table the process can hold; the probe loop's
behaviour is only provable relative to a concrete capacity bound.) -/
theorem C1_adds_then_contains (hash : T → Nat) (xs : List T)
    (hlen : xs.length ≤ 2 ^ 25) :
    ∃ s', runAdds hash new xs = some s' ∧
      (∀ x ∈ xs, contains hash s' x = some true) ∧
      (xs.Nodup → s'.size = xs.length) := by
  obtain ⟨s', hrun, hInv', _, _, _, _, hmem', hnd'⟩ :=
    runAdds_spec hash xs new (inv_new hash) rfl (by simp [new])
      (by simp [new]; omega)
  refine ⟨s', hrun, ?_, ?_⟩
  · intro x hx
    exact contains_true_of_member hash s' x hInv' ((hmem' x).2 (Or.inr hx))
  · intro hnd
    have hfin := hnd' hnd (fun x _ => by simp [member, new])
    simpa [new] using hfin

theorem C1_witness :
    ([3, 5, 9] : List Nat).length ≤ 2 ^ 25 ∧
    ∃ s', runAdds (fun v => v) new [3, 5, 9] = some s' ∧
      (∀ x ∈ [3, 5, 9], contains (fun v => v) s' x = some true) ∧
      (([3, 5, 9] : List Nat).Nodup → s'.size = ([3, 5, 9] : List Nat).length) :=
  ⟨by decide, C1_adds_then_contains (fun v => v) [3, 5, 9] (by decide)⟩

/-- Claim C2: for every reachable state and every item, the quadratic probe
loop invoked by `add`, `contains` and `remove` terminates: each of the three
operations returns (`isSome`), and `index_of` itself returns whenever the
table is non-empty.  Growth is triggered strictly before `loaded` can reach
`capacity`, so an `Empty` bucket always exists, and the `mod 2^64`
wraparound of the probe arithmetic makes every bucket reachable from any
hash.  (Stated for capacities up to `2^28 - 2`, covering every table the
process can hold.) -/
theorem C2_probe_terminates (hash : T → Nat) (s : HashSet T) (item : T)
    (hr : Reachable hash s) (hbound : s.data.length ≤ 2 ^ 28 - 2) :
    (contains hash s item).isSome ∧ (remove hash s item).isSome ∧
      (add hash s item).isSome ∧
      (0 < s.data.length → (index_of hash s item).isSome) := by
  have hInv := reachable_inv hash s hr
  exact ⟨contains_total hash s item hInv (by omega),
    remove_total hash s item hInv (by omega),
    add_total hash s item hInv hbound,
    fun hlen => index_of_total hash s item hInv hlen (by omega)⟩

theorem C2_witness :
    Reachable (fun v => v) (new : HashSet Nat) ∧
    (new : HashSet Nat).data.length ≤ 2 ^ 28 - 2 ∧
    ((contains (fun v => v) (new : HashSet Nat) 0).isSome ∧
      (remove (fun v => v) (new : HashSet Nat) 0).isSome ∧
      (add (fun v => v) (new : HashSet Nat) 0).isSome ∧
      (0 < (new : HashSet Nat).data.length →
        (index_of (fun v => v) (new : HashSet Nat) 0).isSome)) :=
  ⟨Reachable.start, by decide,
    C2_probe_terminates (fun v => v) new 0 Reachable.start (by decide)⟩

/-- Claim C3: `remove(item)` returns `false` without probing when
`size == 0`; when an equal `Occupied` bucket is found by probing it
overwrites that bucket with a `Tombstone`, decrements `size`, leaves
`loaded` unchanged and returns `true`, after which `contains(item)` returns
`false`; when `Empty` is reached first it returns `false` and does not
change the state (in particular the size). -/
theorem C3_remove_behaviour (hash : T → Nat) (s : HashSet T) (x : T)
    (hr : Reachable hash s) (hbound : s.data.length ≤ 2 ^ 28 - 2) :
    (s.size = 0 → remove hash s x = some (s, false)) ∧
    (∀ s', remove hash s x = some (s', true) →
      s'.size = s.size - 1 ∧ s'.loaded = s.loaded ∧
      contains hash s' x = some false ∧
      ∃ i, index_of hash s x = some i ∧ bucketAt s i = .NonEmpty x ∧
        s'.data = s.data.set i .Deleted) ∧
    (∀ s', remove hash s x = some (s', false) → s' = s) := by
  have hInv := reachable_inv hash s hr
  refine ⟨?_, ?_, ?_⟩
  · intro hsz
    unfold remove
    rw [if_pos hsz]
  · intro s' h
    obtain ⟨hInv', hmx, hnm', hpres, hsz', hld', hlen', hs1⟩ :=
      remove_true_spec hash s s' x hInv h
    obtain ⟨hsz0, i, hio, hbk, hseq⟩ := remove_some_true hash s s' x h
    exact ⟨hsz', hld',
      contains_false_of_not_member hash s' x hInv' (by omega) hnm',
      i, hio, hbk, by rw [hseq]⟩
  · intro s' h
    exact remove_some_false hash s s' x h

theorem C3_witness :
    Reachable (fun v => v) (⟨[.Empty, .NonEmpty 4], 1, 1⟩ : HashSet Nat) ∧
    (⟨[.Empty, .NonEmpty 4], 1, 1⟩ : HashSet Nat).data.length ≤ 2 ^ 28 - 2 ∧
    (((⟨[.Empty, .NonEmpty 4], 1, 1⟩ : HashSet Nat).size = 0 →
      remove (fun v => v) ⟨[.Empty, .NonEmpty 4], 1, 1⟩ 4
        = some (⟨[.Empty, .NonEmpty 4], 1, 1⟩, false)) ∧
    (∀ s', remove (fun v => v) (⟨[.Empty, .NonEmpty 4], 1, 1⟩ : HashSet Nat) 4
        = some (s', true) →
      s'.size = (⟨[.Empty, .NonEmpty 4], 1, 1⟩ : HashSet Nat).size - 1 ∧
      s'.loaded = (⟨[.Empty, .NonEmpty 4], 1, 1⟩ : HashSet Nat).loaded ∧
      contains (fun v => v) s' 4 = some false ∧
      ∃ i, index_of (fun v => v)
          (⟨[.Empty, .NonEmpty 4], 1, 1⟩ : HashSet Nat) 4 = some i ∧
        bucketAt (⟨[.Empty, .NonEmpty 4], 1, 1⟩ : HashSet Nat) i
          = .NonEmpty 4 ∧
        s'.data = ([.Empty, .NonEmpty 4] :
          List (BucketElement Nat)).set i .Deleted) ∧
    (∀ s', remove (fun v => v) (⟨[.Empty, .NonEmpty 4], 1, 1⟩ : HashSet Nat) 4
        = some (s', false) → s' = ⟨[.Empty, .NonEmpty 4], 1, 1⟩)) :=
  ⟨Reachable.addStep _ _ 4 true Reachable.start (by decide), by decide,
    C3_remove_behaviour (fun v => v) ⟨[.Empty, .NonEmpty 4], 1, 1⟩ 4
      (Reachable.addStep _ _ 4 true Reachable.start (by decide)) (by decide)⟩

/-- Claim C4: for every value `x` present in the set, `remove(x)` then
`add(x)` returns `true` from the `add` and a subsequent `contains(x)`
returns `true` — tombstones never block re-insertion; and the concrete
scenario `add(4), add(4), remove(4), add(4)` on a fresh set returns
`true, false, true, true` and leaves `size() == 1`. -/
theorem C4_tombstone_reinsert (hash : T → Nat) (s : HashSet T) (x : T)
    (hr : Reachable hash s) (hbound : s.data.length ≤ 2 ^ 28 - 2)
    (hmem : member s x) :
    (∃ s1 s2, remove hash s x = some (s1, true) ∧
      add hash s1 x = some (s2, true) ∧
      contains hash s2 x = some true) ∧
    (∃ c1 c2 c3 c4 : HashSet Nat,
      add (fun v => v) new 4 = some (c1, true) ∧
      add (fun v => v) c1 4 = some (c2, false) ∧
      remove (fun v => v) c2 4 = some (c3, true) ∧
      add (fun v => v) c3 4 = some (c4, true) ∧
      c4.size = 1) := by
  constructor
  · have hInv := reachable_inv hash s hr
    obtain ⟨s1, hrem⟩ := remove_of_member hash s x hInv hmem
    obtain ⟨hInv1, _, hnm1, _, _, _, hlen1, _⟩ :=
      remove_true_spec hash s s1 x hInv hrem
    have htot := add_total hash s1 x hInv1 (by omega)
    cases heq : add hash s1 x with
    | none => rw [heq] at htot; exact absurd htot (by simp)
    | some pair =>
      obtain ⟨s2, b⟩ := pair
      obtain ⟨hInv2, hbiff, hmem2, _, _, _, _, _⟩ :=
        add_spec hash s1 s2 x b hInv1 heq
      have hb : b = true := hbiff.2 hnm1
      subst hb
      exact ⟨s1, s2, hrem, heq,
        contains_true_of_member hash s2 x hInv2 ((hmem2 x).2 (Or.inr rfl))⟩
  · exact ⟨⟨[.Empty, .NonEmpty 4], 1, 1⟩,
      ⟨[.Empty, .Empty, .Empty, .Empty, .Empty, .NonEmpty 4], 1, 1⟩,
      ⟨[.Empty, .Empty, .Empty, .Empty, .Empty, .Deleted], 0, 1⟩,
      ⟨[.Empty, .Empty, .NonEmpty 4, .Empty, .Empty, .Deleted], 1, 2⟩,
      by decide, by decide, by decide, by decide, by decide⟩

theorem C4_witness :
    Reachable (fun v => v) (⟨[.Empty, .NonEmpty 4], 1, 1⟩ : HashSet Nat) ∧
    member (⟨[.Empty, .NonEmpty 4], 1, 1⟩ : HashSet Nat) 4 ∧
    ((∃ s1 s2, remove (fun v => v)
        (⟨[.Empty, .NonEmpty 4], 1, 1⟩ : HashSet Nat) 4 = some (s1, true) ∧
      add (fun v => v) s1 4 = some (s2, true) ∧
      contains (fun v => v) s2 4 = some true) ∧
    (∃ c1 c2 c3 c4 : HashSet Nat,
      add (fun v => v) new 4 = some (c1, true) ∧
      add (fun v => v) c1 4 = some (c2, false) ∧
      remove (fun v => v) c2 4 = some (c3, true) ∧
      add (fun v => v) c3 4 = some (c4, true) ∧
      c4.size = 1)) :=
  ⟨Reachable.addStep _ _ 4 true Reachable.start (by decide), by decide,
    C4_tombstone_reinsert (fun v => v) ⟨[.Empty, .NonEmpty 4], 1, 1⟩ 4
      (Reachable.addStep _ _ 4 true Reachable.start (by decide)) (by decide)
      (by decide)⟩

/-- Claim C5: in every reachable state, `size ≤ loaded ≤ capacity`, and the
load factor never exceeds `0.5` (that is, `2 * loaded ≤ capacity`) — in
particular immediately after an insert triggers growth. -/
theorem C5_counter_invariants (hash : T → Nat) (s : HashSet T)
    (hr : Reachable hash s) :
    s.size ≤ s.loaded ∧ s.loaded ≤ s.data.length ∧
      2 * s.loaded ≤ s.data.length := by
  have hInv := reachable_inv hash s hr
  have h1 := hInv.size_eq
  have h2 := hInv.loaded_eq
  have h3 := liveCount_le_loadCount s
  have h4 := loadCount_le_length s
  exact ⟨by omega, by omega, hInv.load_le⟩

theorem C5_witness :
    Reachable (fun v => v) (⟨[.Empty, .NonEmpty 4], 1, 1⟩ : HashSet Nat) ∧
    ((⟨[.Empty, .NonEmpty 4], 1, 1⟩ : HashSet Nat).size
        ≤ (⟨[.Empty, .NonEmpty 4], 1, 1⟩ : HashSet Nat).loaded ∧
      (⟨[.Empty, .NonEmpty 4], 1, 1⟩ : HashSet Nat).loaded
        ≤ (⟨[.Empty, .NonEmpty 4], 1, 1⟩ : HashSet Nat).data.length ∧
      2 * (⟨[.Empty, .NonEmpty 4], 1, 1⟩ : HashSet Nat).loaded
        ≤ (⟨[.Empty, .NonEmpty 4], 1, 1⟩ : HashSet Nat).data.length) :=
  ⟨Reachable.addStep _ _ 4 true Reachable.start (by decide),
    C5_counter_invariants (fun v => v) ⟨[.Empty, .NonEmpty 4], 1, 1⟩
      (Reachable.addStep _ _ 4 true Reachable.start (by decide))⟩

/-- Claim C6, counterexample: the claim "no operation ever makes the
capacity smaller" is false — `clear` drops the table, resetting the
capacity to `0`.  Concretely, after `add(4)` the capacity is `2`, and
`clear` shrinks it to `0`. -/
theorem C6_counterexample :
    ∃ s1 : HashSet Nat, add (fun v => v) new 4 = some (s1, true) ∧
      s1.data.length = 2 ∧ (clear s1).data.length < s1.data.length :=
  ⟨⟨[.Empty, .NonEmpty 4], 1, 1⟩, by decide, by decide, by decide⟩

/-- Claim C6, amended: over a set's lifetime the capacity never decreases
under `add` or `remove` (`add` can only keep or double-plus-two it,
`remove` never touches it); `clear` is the one exception, dropping the
table and resetting the capacity to `0`. -/
theorem C6_capacity_monotone (hash : T → Nat) (s : HashSet T)
    (hr : Reachable hash s) :
    (∀ x s' b, add hash s x = some (s', b) →
      s.data.length ≤ s'.data.length) ∧
    (∀ x s' b, remove hash s x = some (s', b) →
      s'.data.length = s.data.length) ∧
    (clear s).data.length = 0 := by
  have hInv := reachable_inv hash s hr
  refine ⟨?_, ?_, rfl⟩
  · intro x s' b h
    have hlen := (add_spec hash s s' x b hInv h).2.2.2.2.2.1
    by_cases ht : 2 * s.loaded ≥ s.data.length
    · rw [hlen, if_pos ht]
      omega
    · rw [hlen, if_neg ht]
  · intro x s' b h
    cases b with
    | true => exact (remove_true_spec hash s s' x hInv h).2.2.2.2.2.2.1
    | false => rw [remove_some_false hash s s' x h]

theorem C6_witness :
    Reachable (fun v => v) (new : HashSet Nat) ∧
    ((∀ x s' b, add (fun v => v) (new : HashSet Nat) x = some (s', b) →
      (new : HashSet Nat).data.length ≤ s'.data.length) ∧
    (∀ x s' b, remove (fun v => v) (new : HashSet Nat) x = some (s', b) →
      s'.data.length = (new : HashSet Nat).data.length) ∧
    (clear (new : HashSet Nat)).data.length = 0) :=
  ⟨Reachable.start, C6_capacity_monotone (fun v => v) new Reachable.start⟩

/-- Claim C7, counterexample: the claim that `add(x)` on an already-present
`x` "performs no mutation of the set's state (table contents, capacity,
size, and loaded all unchanged)" is false: when the call arrives with the
load factor at the threshold, the growth check fires *before* the
present-check, so the call resizes the table and only then returns
`false`.  Concretely, adding `4` twice from a fresh set leaves capacity `2`
after the first call; the second call returns `false` but grows the
capacity to `6`. -/
theorem C7_counterexample :
    ∃ s1 s2 : HashSet Nat,
      add (fun v => v) new 4 = some (s1, true) ∧
      add (fun v => v) s1 4 = some (s2, false) ∧
      s2.data.length ≠ s1.data.length ∧ s2 ≠ s1 :=
  ⟨⟨[.Empty, .NonEmpty 4], 1, 1⟩,
    ⟨[.Empty, .Empty, .Empty, .Empty, .Empty, .NonEmpty 4], 1, 1⟩,
    by decide, by decide, by decide, by decide⟩

/-- Claim C7, amended: `add(x)` on an already-present `x` returns `false`,
does not change `size`, and does not change the membership of any value;
if the growth check does not fire, the state is entirely unchanged (when
it does fire, the table is rebuilt before the present-check). -/
theorem C7_add_present (hash : T → Nat) (s : HashSet T) (x : T)
    (hr : Reachable hash s) (hbound : s.data.length ≤ 2 ^ 28 - 2)
    (hmem : member s x) :
    ∃ s', add hash s x = some (s', false) ∧ s'.size = s.size ∧
      (∀ y, member s' y ↔ member s y) ∧
      (¬ 2 * s.loaded ≥ s.data.length → s' = s) := by
  have hInv := reachable_inv hash s hr
  have htot := add_total hash s x hInv hbound
  cases heq : add hash s x with
  | none => rw [heq] at htot; exact absurd htot (by simp)
  | some pair =>
    obtain ⟨s', b⟩ := pair
    obtain ⟨hInv', hbiff, hmem', hsizeT, hsizeF, hlen', hnores, _⟩ :=
      add_spec hash s s' x b hInv heq
    have hb : b = false := by
      cases b with
      | true => exact absurd hmem (hbiff.1 rfl)
      | false => rfl
    subst hb
    refine ⟨s', rfl, hsizeF rfl, ?_, fun hnt => hnores hnt rfl⟩
    intro y
    rw [hmem' y]
    constructor
    · rintro (hy | rfl)
      · exact hy
      · exact hmem
    · exact Or.inl

theorem C7_witness :
    Reachable (fun v => v) (⟨[.Empty, .NonEmpty 4], 1, 1⟩ : HashSet Nat) ∧
    member (⟨[.Empty, .NonEmpty 4], 1, 1⟩ : HashSet Nat) 4 ∧
    (∃ s', add (fun v => v) (⟨[.Empty, .NonEmpty 4], 1, 1⟩ : HashSet Nat) 4
        = some (s', false) ∧
      s'.size = (⟨[.Empty, .NonEmpty 4], 1, 1⟩ : HashSet Nat).size ∧
      (∀ y, member s' y ↔
        member (⟨[.Empty, .NonEmpty 4], 1, 1⟩ : HashSet Nat) y) ∧
      (¬ 2 * (⟨[.Empty, .NonEmpty 4], 1, 1⟩ : HashSet Nat).loaded
          ≥ (⟨[.Empty, .NonEmpty 4], 1, 1⟩ : HashSet Nat).data.length →
        s' = ⟨[.Empty, .NonEmpty 4], 1, 1⟩)) :=
  ⟨Reachable.addStep _ _ 4 true Reachable.start (by decide), by decide,
    C7_add_present (fun v => v) ⟨[.Empty, .NonEmpty 4], 1, 1⟩ 4
      (Reachable.addStep _ _ 4 true Reachable.start (by decide)) (by decide)
      (by decide)⟩

/-- The probe index as the spec words it: `index(k) = (hash(item) + k^2)
mod capacity`, computed in exact (unbounded) integer arithmetic.  Stated
for comparison with the source's `probeIndex`, whose `hash as usize + k*k`
wraps around `2^64`. -/
def specProbeIndex (h len k : Nat) : Nat := (h + k * k) % len

/-- Claim C8, counterexample: the claim that the bucket index examined at
probe step `k` equals `(hash(item) + k^2) mod capacity` *in exact
(unbounded) integer arithmetic* is false: the source computes
`hash as usize + k * k`, which wraps modulo `2^64`.  On a reachable
capacity-6 table under a (legal, constant) hash function returning
`2^64 - 1`, the code examines bucket `0` at step `k = 1`, while the exact
formula names bucket `4`. -/
theorem C8_counterexample :
    ∃ s : HashSet Nat, Reachable (fun _ => 2 ^ 64 - 1) s ∧
      s.data.length = 6 ∧
      probePos (fun _ => 2 ^ 64 - 1) s 7 1 = 0 ∧
      specProbeIndex (2 ^ 64 - 1) s.data.length 1 = 4 ∧
      probePos (fun _ => 2 ^ 64 - 1) s 7 1 ≠
        specProbeIndex (2 ^ 64 - 1) s.data.length 1 := by
  refine ⟨⟨[.NonEmpty 0, .Empty, .Empty, .NonEmpty 1, .Empty, .Empty],
    2, 2⟩, ?_, by decide, by decide, by decide, by decide⟩
  exact Reachable.addStep ⟨[.NonEmpty 0, .Empty], 1, 1⟩ _ 1 true
    (Reachable.addStep new ⟨[.NonEmpty 0, .Empty], 1, 1⟩ 0 true
      Reachable.start (by decide)) (by decide)

/-- Claim C8, amended: for every probe step `k = 1, 2, 3, …`, the bucket
index examined equals `((hash(item) + k^2) mod 2^64) mod capacity` — the
wrapping 64-bit computation of the source — which agrees with the spec's
exact formula whenever `hash(item) + k^2 < 2^64`; and probing stops exactly
when the bucket is `Empty` or holds an `Occupied` value equal to the
item. -/
theorem C8_probe_arithmetic :
    (∀ h len k : Nat, probeIndex h len k = (h + k * k) % USIZE % len) ∧
    (∀ h len k : Nat, h + k * k < USIZE →
      probeIndex h len k = specProbeIndex h len k) ∧
    (∀ (item : T) (b : BucketElement T),
      found_index item b = true ↔ (b = .Empty ∨ b = .NonEmpty item)) := by
  refine ⟨probeIndex_eq, ?_, ?_⟩
  · intro h len k hlt
    rw [probeIndex_eq, Nat.mod_eq_of_lt hlt]
    rfl
  · intro item b
    constructor
    · exact found_index_true
    · rintro (rfl | rfl)
      · rfl
      · exact found_index_of_eq item

theorem C8_witness :
    (4 + 1 * 1 < USIZE) ∧ probeIndex 4 6 1 = specProbeIndex 4 6 1 :=
  ⟨by decide, (@C8_probe_arithmetic Nat instDecidableEqNat).2.1 4 6 1 (by decide)⟩

/-- Claim C9: `index_of` is total only on sets with `capacity > 0` — on an
empty table it computes a remainder modulo zero and panics (modelled as
`none`); `contains` and `remove` avoid this branch solely through their
`size == 0` early return (on reachable states, `size > 0` forces
`capacity > 0`, and at `size == 0` both return `false` without probing);
and the other public operations are total on reachable states (`add`,
`contains`, `remove` all return on every reachable state of realisable
capacity; `new`, `size`, `is_empty`, `clear` are structurally total). -/
theorem C9_index_of_partiality (hash : T → Nat) (s : HashSet T) (x : T) :
    (s.data.length = 0 → index_of hash s x = none) ∧
    (Reachable hash s → 0 < s.size → 0 < s.data.length) ∧
    (s.size = 0 → contains hash s x = some false ∧
      remove hash s x = some (s, false)) ∧
    (Reachable hash s → s.data.length ≤ 2 ^ 28 - 2 →
      (add hash s x).isSome ∧ (contains hash s x).isSome ∧
        (remove hash s x).isSome) := by
  refine ⟨index_of_empty_table hash s x, ?_, ?_, ?_⟩
  · intro hr hsz
    have hInv := reachable_inv hash s hr
    have h1 := hInv.size_eq
    have h2 : liveCount s ≤ s.data.length := List.countP_le_length _
    omega
  · intro hsz
    constructor
    · unfold contains
      rw [if_pos hsz]
    · unfold remove
      rw [if_pos hsz]
  · intro hr hbound
    have hInv := reachable_inv hash s hr
    exact ⟨add_total hash s x hInv hbound,
      contains_total hash s x hInv (by omega),
      remove_total hash s x hInv (by omega)⟩

theorem C9_witness :
    ((⟨[], 5, 5⟩ : HashSet Nat).data.length = 0 ∧
      index_of (fun v => v) (⟨[], 5, 5⟩ : HashSet Nat) 3 = none) ∧
    ((new : HashSet Nat).size = 0 ∧
      contains (fun v => v) (new : HashSet Nat) 3 = some false ∧
      remove (fun v => v) (new : HashSet Nat) 3 = some (new, false)) ∧
    (0 < (⟨[.Empty, .NonEmpty 4], 1, 1⟩ : HashSet Nat).data.length) ∧
    ((add (fun v => v) (new : HashSet Nat) 3).isSome ∧
      (contains (fun v => v) (new : HashSet Nat) 3).isSome ∧
      (remove (fun v => v) (new : HashSet Nat) 3).isSome) :=
  ⟨⟨rfl, (C9_index_of_partiality (fun v => v) ⟨[], 5, 5⟩ 3).1 rfl⟩,
    ⟨rfl, (C9_index_of_partiality (fun v => v) new 3).2.2.1 rfl⟩,
    (C9_index_of_partiality (fun v => v)
        (⟨[.Empty, .NonEmpty 4], 1, 1⟩ : HashSet Nat) 4).2.1
      (Reachable.addStep _ _ 4 true Reachable.start (by decide)) (by decide),
    (C9_index_of_partiality (fun v => v) (new : HashSet Nat) 3).2.2.2
      Reachable.start (by decide)⟩

/-- Claim C10: whenever `add` runs, the resulting capacity is exactly
`2 * (old capacity) + 2` when the growth check fires and unchanged
otherwise; the first insert allocates capacity `2`; and every reachable
capacity is of the form `2^(n+1) - 2` (`0, 2, 6, 14, 30, …`). -/
theorem C10_capacity_form (hash : T → Nat) (s : HashSet T) :
    (∀ s' (x : T) (b : Bool), Reachable hash s →
      add hash s x = some (s', b) →
      s'.data.length = (if 2 * s.loaded ≥ s.data.length
        then s.data.length * 2 + 2 else s.data.length)) ∧
    (∀ x : T, ∃ s', add hash new x = some (s', true) ∧
      s'.data.length = 2) ∧
    (Reachable hash s → ∃ n, s.data.length = 2 ^ (n + 1) - 2) := by
  refine ⟨?_, ?_, ?_⟩
  · intro s' x b hr h
    exact (add_spec hash s s' x b (reachable_inv hash s hr) h).2.2.2.2.2.1
  · intro x
    have htot := add_total hash new x (inv_new hash) (by simp [new])
    cases heq : add hash new x with
    | none => rw [heq] at htot; exact absurd htot (by simp)
    | some pair =>
      obtain ⟨s', b⟩ := pair
      obtain ⟨_, hbiff, _, _, _, hlen', _, _⟩ :=
        add_spec hash new s' x b (inv_new hash) heq
      have hb : b = true := hbiff.2 (by simp [member, new])
      subst hb
      refine ⟨s', rfl, ?_⟩
      rw [hlen']
      simp [new]
  · intro hr
    exact (reachable_inv hash s hr).cap_form

theorem C10_witness :
    (∃ s', add (fun v => v) (new : HashSet Nat) 4 = some (s', true) ∧
      s'.data.length = 2) ∧
    (Reachable (fun v => v) (⟨[.Empty, .NonEmpty 4], 1, 1⟩ : HashSet Nat) ∧
      ∃ n, (⟨[.Empty, .NonEmpty 4], 1, 1⟩ :
        HashSet Nat).data.length = 2 ^ (n + 1) - 2) :=
  ⟨(C10_capacity_form (fun v => v) (new : HashSet Nat)).2.1 4,
    ⟨Reachable.addStep _ _ 4 true Reachable.start (by decide),
      (C10_capacity_form (fun v => v) ⟨[.Empty, .NonEmpty 4], 1, 1⟩).2.2
        (Reachable.addStep _ _ 4 true Reachable.start (by decide))⟩⟩

end HashSetVerify
